import Mathlib

/-!
Verification of the mrklar append-only Merkle-tree file archive.

The Rust sources are shallowly embedded: byte vectors (`Vec<u8>`) become
`List Nat`, fallible functions return a three-valued result (`ok`, a domain
error, or `panicked` for a failed `assert!` / out-of-bounds index /
`unwrap`), and SHA-256 is treated as an abstract pair-hash parameter
`sha256_pair` (the algorithms under verification use it as an opaque
function; where a property of SHA-256 matters, such as its output being a
nonempty 32-byte digest, it appears as an explicit hypothesis).
-/

/-- Byte strings (`Vec<u8>` in the source) are lists of naturals. -/
abbrev Bytes := List Nat

/-- The designated null digest: 32 zero bytes (`NULL_HASH` in
`merkle_proof.rs`). -/
def nullHash : Bytes := List.replicate 32 0

/-- One entry of a Merkle proof (`MerkleProofHash` in `merkle_proof.rs`):
a sibling digest tagged with the side it sits on. -/
structure MerkleProofHash where
  left : Bool
  hash : Bytes
deriving DecidableEq, Repr, Inhabited

/-- `MerkleProofHash::new_left`. -/
def MerkleProofHash.new_left (hash : Bytes) : MerkleProofHash := ⟨true, hash⟩

/-- `MerkleProofHash::new_right`. -/
def MerkleProofHash.new_right (hash : Bytes) : MerkleProofHash := ⟨false, hash⟩

/-- A Merkle proof (`MerkleProof` in `merkle_proof.rs`): the committed root
and the ordered sibling list, leaves first. -/
structure MerkleProof where
  root : Bytes
  hashes : List MerkleProofHash
deriving DecidableEq, Repr, Inhabited

/-- `MerkleProof::from_raw_parts`. -/
def MerkleProof.from_raw_parts (root : Bytes) (hashes : List MerkleProofHash) :
    MerkleProof := ⟨root, hashes⟩

/-- Result of a fallible Rust computation: success, a returned error, or a
panic (failed `assert!`, out-of-bounds slice index, or `unwrap` of an error). -/
inductive Res (ε α : Type) where
  | ok (a : α)
  | err (e : ε)
  | panicked
deriving DecidableEq, Repr

/-- Sequencing of fallible computations (the `?` operator in the source). -/
def Res.bind {ε α β : Type} (x : Res ε α) (f : α → Res ε β) : Res ε β :=
  match x with
  | .ok a => f a
  | .err e => .err e
  | .panicked => .panicked

@[simp] theorem Res.bind_ok {ε α β : Type} (a : α) (f : α → Res ε β) :
    Res.bind (.ok a) f = f a := rfl

@[simp] theorem Res.bind_err {ε α β : Type} (e : ε) (f : α → Res ε β) :
    Res.bind (.err e) f = .err e := rfl

@[simp] theorem Res.bind_panicked {ε α β : Type} (f : α → Res ε β) :
    Res.bind (.panicked : Res ε α) f = .panicked := rfl

/-- The tree crate error enum (`MerkleTreeError` in `tree/src/error.rs`);
the transport variant wrapping `std::io::Error` is never produced by the
embedded logic and is omitted. -/
inductive MerkleTreeError where
  | InvalidHash (level : Nat) (index : Nat)
  | TreeEmpty
  | NodeDoesNotExist (level : Nat) (index : Nat)
  | TooManyLevels
  | LevelFull (level : Nat)
  | UnexpectedError
deriving DecidableEq, Repr

abbrev MTRes (α : Type) := Res MerkleTreeError α

/-! ## Merkle proof verification (`merkle_proof.rs`) -/

section Verify

variable (sha256_pair : Bytes → Bytes → Bytes)

/-- The loop of `MerkleProof::verify` over the entries after the first:
the running digest is replaced by `SHA256(entry.hash ‖ running)` when the
entry is left-tagged and by `SHA256(running ‖ entry.hash)` otherwise. -/
def verify_loop : List MerkleProofHash → Bytes → Bytes
  | [], acc => acc
  | e :: rest, acc =>
    verify_loop rest
      (if e.left then sha256_pair e.hash acc else sha256_pair acc e.hash)

/-- `MerkleProof::verify`: reject an empty proof, otherwise seed the running
digest from the input and the first entry, fold the remaining entries, and
compare with the embedded root. -/
def MerkleProof.verify (p : MerkleProof) (input : Bytes) : Bool :=
  match p.hashes with
  | [] => false
  | h0 :: rest =>
    verify_loop sha256_pair rest
      (if h0.left then sha256_pair h0.hash input
       else sha256_pair input h0.hash) == p.root

/-- One verification fold step, as the specification phrases it. -/
def foldStep (acc : Bytes) (e : MerkleProofHash) : Bytes :=
  if e.left then sha256_pair e.hash acc else sha256_pair acc e.hash

/-- Verification as the specification describes it: reject the empty
sequence; otherwise fold `foldStep` over the whole sequence starting from
the input digest, and accept exactly when the result equals the root.
(Starting the fold at the input is equivalent to the spec's explicit
treatment of the first entry, since the first step applies the same
combination rule.) -/
def verifySpec (p : MerkleProof) (input : Bytes) : Bool :=
  match p.hashes with
  | [] => false
  | _ :: _ => (p.hashes.foldl (foldStep sha256_pair) input) == p.root

end Verify

/-! ## Merkle tree levels (`merkle_tree.rs`, `MerkleTreeLevel`) -/

/-- `MAX_LEVEL_COUNT` in `merkle_tree.rs`. -/
def MAX_LEVEL_COUNT : Nat := 64

/-- Modelled from the spec: the `pow2` module (`two_pow_n`) of the tree
crate is not among the sources; per the spec a level `k` below the root in
a tree of height `h` holds at most `2 ^ (h - 1 - k)` digests, which forces
`two_pow_n n = 2 ^ n` as the per-level capacity. -/
def two_pow_n (n : Nat) : Nat := 2 ^ n

/-- One level of the tree (`MerkleTreeLevel`): its ordinal (0 at the root,
growing towards the leaves) and its ordered digests. -/
structure MerkleTreeLevel where
  level : Nat
  hashes : List Bytes
deriving DecidableEq, Repr, Inhabited

/-- `MerkleTreeLevel::new`. -/
def MerkleTreeLevel.new : MerkleTreeLevel := ⟨0, []⟩

/-- `MerkleTreeLevel::len`. -/
def MerkleTreeLevel.len (l : MerkleTreeLevel) : Nat := l.hashes.length

/-- `MerkleTreeLevel::is_empty`. -/
def MerkleTreeLevel.is_empty (l : MerkleTreeLevel) : Bool := l.len == 0

/-- `MerkleTreeLevel::max_len_at_level`. -/
def MerkleTreeLevel.max_len_at_level (level : Nat) : Nat := two_pow_n level

/-- `MerkleTreeLevel::max_len`. -/
def MerkleTreeLevel.max_len (l : MerkleTreeLevel) : Nat :=
  MerkleTreeLevel.max_len_at_level l.level

/-- `MerkleTreeLevel::is_full`. -/
def MerkleTreeLevel.is_full (l : MerkleTreeLevel) : Bool :=
  decide (l.max_len ≤ l.len)

/-- `MerkleTreeLevel::inc_level`: bump the ordinal unless it has reached
`MAX_LEVEL_COUNT`. The source returns the new ordinal; the embedding
returns the updated level. -/
def MerkleTreeLevel.inc_level (l : MerkleTreeLevel) : MTRes MerkleTreeLevel :=
  if l.level < MAX_LEVEL_COUNT then .ok ⟨l.level + 1, l.hashes⟩
  else .err .TooManyLevels

/-- `MerkleTreeLevel::push_hash`: reject when the level is full, assert the
last stored digest (if any) is nonempty, then append. -/
def MerkleTreeLevel.push_hash (l : MerkleTreeLevel) (hash : Bytes) :
    MTRes MerkleTreeLevel :=
  if l.max_len ≤ l.len then .err (.LevelFull l.level)
  else if l.hashes ≠ [] ∧ l.hashes.getLastD [] = [] then .panicked
  else .ok ⟨l.level, l.hashes ++ [hash]⟩

/-- `MerkleTreeLevel::add_hash`. -/
def MerkleTreeLevel.add_hash (l : MerkleTreeLevel) (hash : Bytes) :
    MTRes MerkleTreeLevel :=
  l.push_hash hash

/-- `MerkleTreeLevel::sibling_index`. -/
def sibling_index (index : Nat) : Nat :=
  if index % 2 = 0 then index + 1 else index - 1

/-- `MerkleTreeLevel::left_right_at`. -/
def left_right_at (index : Nat) : Nat × Nat :=
  if index % 2 = 0 then (index, index + 1) else (index - 1, index)

/-- `MerkleTreeLevel::get_hash_at`: bound check, then assert the stored
digest is nonempty. -/
def MerkleTreeLevel.get_hash_at (l : MerkleTreeLevel) (index : Nat) :
    MTRes Bytes :=
  if l.len ≤ index then .err (.NodeDoesNotExist l.level index)
  else if l.hashes.getD index [] = [] then .panicked
  else .ok (l.hashes.getD index [])

/-- `MerkleTreeLevel::set_hash_at`: reject an empty digest, reject an index
beyond the append position, append at the boundary, overwrite inside. -/
def MerkleTreeLevel.set_hash_at (l : MerkleTreeLevel) (index : Nat)
    (hash : Bytes) : MTRes MerkleTreeLevel :=
  if hash = [] then .err (.InvalidHash l.level index)
  else if l.len < index then .err (.NodeDoesNotExist l.level index)
  else if index = l.len then l.push_hash hash
  else .ok ⟨l.level, l.hashes.set index hash⟩

/-- `MerkleTreeLevel::try_parent_index`: only levels below the root (ordinal
nonzero) have parents; the parent index must fit the parent capacity. -/
def MerkleTreeLevel.try_parent_index (l : MerkleTreeLevel) (index : Nat) :
    MTRes Nat :=
  if l.level = 0 then .err (.NodeDoesNotExist l.level index)
  else
    let parent_index := index / 2
    if MerkleTreeLevel.max_len_at_level (l.level - 1) ≤ parent_index then
      .err (.NodeDoesNotExist (l.level - 1) parent_index)
    else .ok parent_index

/-- `MerkleTreeLevel::hash_left_right_at`: pair the two children at the
even/odd window around `index` (null right padding at the tail) and hash
them. -/
def MerkleTreeLevel.hash_left_right_at (sha256_pair : Bytes → Bytes → Bytes)
    (l : MerkleTreeLevel) (index : Nat) : MTRes Bytes :=
  let lr := left_right_at index
  if lr.1 + 1 ≠ lr.2 then .panicked
  else if l.len ≤ lr.1 then .err (.NodeDoesNotExist l.level lr.1)
  else
    Res.bind (l.get_hash_at lr.1) fun left_hash =>
      Res.bind (if lr.2 = l.len then .ok nullHash else l.get_hash_at lr.2)
        fun right_hash => .ok (sha256_pair left_hash right_hash)

/-! ## The Merkle tree (`merkle_tree.rs`, `MerkleTree`) -/

/-- The tree (`MerkleTree`): a vector of levels, leaves at vector index 0,
the root level last. -/
structure MerkleTree where
  levels : List MerkleTreeLevel
deriving DecidableEq, Repr

/-- `MerkleTree::new` / `Default`: a single empty level. -/
def MerkleTree.new : MerkleTree := ⟨[MerkleTreeLevel.new]⟩

instance : Inhabited MerkleTree := ⟨MerkleTree.new⟩

/-- `MerkleTree::level_count`, including its two assertions (the level
vector is nonempty and holds fewer than `MAX_LEVEL_COUNT` levels). -/
def MerkleTree.level_count (t : MerkleTree) : MTRes Nat :=
  if t.levels.length = 0 then .panicked
  else if MAX_LEVEL_COUNT ≤ t.levels.length then .panicked
  else .ok t.levels.length

/-- `MerkleTree::level` (and `level_mut`): the same assertions as
`level_count` plus the panic of an out-of-bounds vector index. -/
def MerkleTree.level (t : MerkleTree) (index : Nat) : MTRes MerkleTreeLevel :=
  if t.levels.length = 0 then .panicked
  else if MAX_LEVEL_COUNT ≤ t.levels.length then .panicked
  else if h : index < t.levels.length then .ok (t.levels.get ⟨index, h⟩)
  else .panicked

/-- `MerkleTree::leaves`. -/
def MerkleTree.leaves (t : MerkleTree) : MTRes MerkleTreeLevel := t.level 0

/-- `MerkleTree::leaf_count`. -/
def MerkleTree.leaf_count (t : MerkleTree) : MTRes Nat :=
  Res.bind t.leaves fun l => .ok l.len

/-- `MerkleTree::is_empty`: one level and no leaves (with the source's
short-circuit evaluation of `&&`). -/
def MerkleTree.is_empty (t : MerkleTree) : MTRes Bool :=
  Res.bind t.level_count fun c =>
    if c = 1 then Res.bind t.leaves fun l => .ok l.is_empty
    else .ok false

/-- `MerkleTree::root`: the last level. -/
def MerkleTree.root (t : MerkleTree) : MTRes MerkleTreeLevel :=
  Res.bind t.level_count fun c => t.level (c - 1)

/-- `MerkleTree::root_hash`: the single digest of the root level. -/
def MerkleTree.root_hash (t : MerkleTree) : MTRes Bytes :=
  Res.bind t.root fun r => r.get_hash_at 0

/-- The loop body of `MerkleTree::inc_leaves_level`: bump every level's
ordinal in order, stopping at the first error. -/
def incLevelsGo : List MerkleTreeLevel → MTRes (List MerkleTreeLevel)
  | [] => .ok []
  | l :: ls =>
    Res.bind l.inc_level fun l1 =>
      Res.bind (incLevelsGo ls) fun ls1 => .ok (l1 :: ls1)

/-- `MerkleTree::inc_leaves_level`: bump every ordinal, assert the old root
level now has ordinal 1, push a fresh empty level (the new root level),
and assert the new root level has ordinal 0. The two assertions read the
root through `root()`, repeating the `level_count` assertions. -/
def MerkleTree.inc_leaves_level (t : MerkleTree) : MTRes MerkleTree :=
  Res.bind (incLevelsGo t.levels) fun ls =>
    Res.bind (MerkleTree.root ⟨ls⟩) fun r1 =>
      if r1.level ≠ 1 then .panicked
      else
        Res.bind (MerkleTree.root ⟨ls ++ [MerkleTreeLevel.new]⟩) fun r2 =>
          if r2.level ≠ 0 then .panicked
          else .ok ⟨ls ++ [MerkleTreeLevel.new]⟩

/-- The loop of `MerkleTree::update_at`: at iteration `i` hash the child
window around `pos` on level `i`, step `pos` to the parent index, and
set-or-append the result on level `i + 1`. The first argument counts the
remaining iterations (`stop - i` at every call). -/
def updateGo (sha256_pair : Bytes → Bytes → Bytes) :
    Nat → MerkleTree → Nat → Nat → Nat → MTRes MerkleTree
  | 0, t, _, _, _ => .ok t
  | fuel + 1, t, pos, i, stop =>
    if i < stop then
      Res.bind (t.level i) fun lvl =>
        Res.bind (lvl.hash_left_right_at sha256_pair pos) fun hash =>
          Res.bind (lvl.try_parent_index pos) fun pos1 =>
            Res.bind (t.level (i + 1)) fun plvl =>
              Res.bind (plvl.set_hash_at pos1 hash) fun plvl1 =>
                updateGo sha256_pair fuel ⟨t.levels.set (i + 1) plvl1⟩ pos1
                  (i + 1) stop
    else .ok t

/-- `MerkleTree::update_at`: run the update loop over levels
`0 .. level_count - 2`. -/
def MerkleTree.update_at (sha256_pair : Bytes → Bytes → Bytes)
    (t : MerkleTree) (index : Nat) : MTRes MerkleTree :=
  Res.bind t.level_count fun c =>
    updateGo sha256_pair (c - 1) t index 0 (c - 1)

/-- `MerkleTree::add_leaf`: grow the height when the leaves level is full or
the tree is empty (with the source's short-circuit `||`), append the digest
to the leaves level, and rehash the path of the new leaf. Returns the new
leaf index together with the updated tree. -/
def MerkleTree.add_leaf (sha256_pair : Bytes → Bytes → Bytes)
    (t : MerkleTree) (hash : Bytes) : MTRes (Nat × MerkleTree) :=
  Res.bind t.leaves fun lv =>
    Res.bind
      (if lv.is_full then t.inc_leaves_level
       else
         Res.bind t.is_empty fun e =>
           if e then t.inc_leaves_level else .ok t) fun t1 =>
      Res.bind t1.leaves fun leaves0 =>
        Res.bind (leaves0.add_hash hash) fun leaves1 =>
          Res.bind
            (MerkleTree.update_at sha256_pair ⟨t1.levels.set 0 leaves1⟩
              (leaves1.len - 1)) fun t3 =>
            .ok (leaves1.len - 1, t3)

/-- The loop of `MerkleTree::proof_at`: at iteration `i`, emit the sibling
of `pos` on level `i` (a right-tagged null digest when the sibling position
equals the level length, otherwise the stored digest tagged by its side),
then step `pos` to the parent index, asserting the sibling has the same
parent. -/
def proofGo (t : MerkleTree) :
    Nat → Nat → Nat → Nat → List MerkleProofHash → MTRes (List MerkleProofHash)
  | 0, _, _, _, acc => .ok acc
  | fuel + 1, pos, i, stop, acc =>
    if i < stop then
      Res.bind (t.level i) fun lvl =>
        let s := sibling_index pos
        if lvl.len < s then .err (.NodeDoesNotExist i s)
        else
          Res.bind
            (if s = lvl.len then
               if s ≠ pos + 1 then .panicked
               else .ok (MerkleProofHash.new_right nullHash)
             else if s = pos + 1 then
               Res.bind (lvl.get_hash_at s) fun h =>
                 .ok (MerkleProofHash.new_right h)
             else
               Res.bind (lvl.get_hash_at s) fun h =>
                 .ok (MerkleProofHash.new_left h))
            fun ph =>
              Res.bind (lvl.try_parent_index pos) fun pos1 =>
                Res.bind (lvl.try_parent_index s) fun sp =>
                  if sp ≠ pos1 then .panicked
                  else proofGo t fuel pos1 (i + 1) stop (acc ++ [ph])
    else .ok acc

/-- `MerkleTree::proof_at`: reject the empty tree and out-of-range indices,
then collect the sibling path of leaf `index`, level by level from the
leaves up. The sibling list is packaged with the tree's current root
digest; the packaging call (`MerkleProof::with_hashes`) is absent from the
sources and that final step is modelled from the spec, which states the
returned value is the ordered sibling list "plus the current root digest"
and that verification compares against the proof's own embedded root. -/
def MerkleTree.proof_at (t : MerkleTree) (index : Nat) : MTRes MerkleProof :=
  Res.bind t.is_empty fun e =>
    if e then .err .TreeEmpty
    else
      Res.bind t.leaves fun lv =>
        if lv.len ≤ index then .err (.NodeDoesNotExist lv.level index)
        else
          Res.bind t.level_count fun c =>
            Res.bind (proofGo t (c - 1) index 0 (c - 1) []) fun hashes =>
              Res.bind t.root_hash fun r =>
                .ok (MerkleProof.from_raw_parts r hashes)

/-! ## Canonical level contents

The imperative tree is related to a functional description: level `k` of a
tree holding leaves `ds` stores `iterUp k ds`, where one application of
`levelUp` pairs adjacent digests (padding an odd tail with the null
digest). -/

section Canonical

variable (sha256_pair : Bytes → Bytes → Bytes)

/-- One level of pairwise hashing with odd-tail null padding: the
specification's equation `L[k+1][j] = SHA256(L[k][2j] ‖ L[k][2j+1])` with
`L[k][2j+1]` read as the null digest beyond the tail. -/
def levelUp : List Bytes → List Bytes
  | [] => []
  | [a] => [sha256_pair a nullHash]
  | a :: b :: rest => sha256_pair a b :: levelUp rest

/-- `k`-fold application of `levelUp`. -/
def iterUp : Nat → List Bytes → List Bytes
  | 0, l => l
  | k + 1, l => levelUp sha256_pair (iterUp k l)

@[simp] theorem iterUp_zero (l : List Bytes) : iterUp sha256_pair 0 l = l := rfl

@[simp] theorem iterUp_succ (k : Nat) (l : List Bytes) :
    iterUp sha256_pair (k + 1) l = levelUp sha256_pair (iterUp sha256_pair k l) := rfl

theorem iterUp_succ_inner (k : Nat) (l : List Bytes) :
    iterUp sha256_pair (k + 1) l = iterUp sha256_pair k (levelUp sha256_pair l) := by
  induction k with
  | zero => rfl
  | succ k ih =>
    rw [iterUp_succ, ih]
    rfl

@[simp] theorem levelUp_nil : levelUp sha256_pair [] = [] := rfl

@[simp] theorem levelUp_singleton (a : Bytes) :
    levelUp sha256_pair [a] = [sha256_pair a nullHash] := rfl

@[simp] theorem levelUp_cons_cons (a b : Bytes) (r : List Bytes) :
    levelUp sha256_pair (a :: b :: r) = sha256_pair a b :: levelUp sha256_pair r := rfl

theorem levelUp_length : ∀ l : List Bytes,
    (levelUp sha256_pair l).length = (l.length + 1) / 2
  | [] => by simp
  | [_] => by simp
  | _ :: _ :: r => by
    simp [levelUp_length r]
    omega

theorem levelUp_ne_nil {l : List Bytes} (h : l ≠ []) :
    levelUp sha256_pair l ≠ [] := by
  match l with
  | [] => exact absurd rfl h
  | [a] => simp
  | a :: b :: r => simp

theorem levelUp_mem_ne_nil (hne : ∀ a b, sha256_pair a b ≠ []) :
    ∀ (l : List Bytes), ∀ x ∈ levelUp sha256_pair l, x ≠ []
  | [], x, hx => by simp [levelUp] at hx
  | [a], x, hx => by
    simp [levelUp] at hx
    subst hx
    exact hne _ _
  | a :: b :: r, x, hx => by
    rcases List.mem_cons.mp hx with h | h
    · subst h; exact hne _ _
    · exact levelUp_mem_ne_nil hne r x h

theorem iterUp_mem_ne_nil (hne : ∀ a b, sha256_pair a b ≠ [])
    {l : List Bytes} (hl : ∀ x ∈ l, x ≠ []) :
    ∀ k, ∀ x ∈ iterUp sha256_pair k l, x ≠ []
  | 0, x, hx => hl x hx
  | _ + 1, x, hx => levelUp_mem_ne_nil sha256_pair hne _ x hx

theorem iterUp_ne_nil {l : List Bytes} (h : l ≠ []) :
    ∀ k, iterUp sha256_pair k l ≠ []
  | 0 => h
  | k + 1 => levelUp_ne_nil sha256_pair (iterUp_ne_nil h k)

theorem iterUp_length_succ (k : Nat) (l : List Bytes) :
    (iterUp sha256_pair (k + 1) l).length =
      ((iterUp sha256_pair k l).length + 1) / 2 := by
  rw [iterUp_succ, levelUp_length]

/-- Per-level capacity: `ceil`-halving keeps the length within the
power-of-two budget. -/
theorem iterUp_length_le {l : List Bytes} {m : Nat} (h : l.length ≤ 2 ^ m) :
    ∀ k, k ≤ m → (iterUp sha256_pair k l).length ≤ 2 ^ (m - k)
  | 0, _ => by simpa using h
  | k + 1, hk => by
    have ih := iterUp_length_le h k (Nat.le_of_succ_le hk)
    rw [iterUp_length_succ]
    have h2 : 2 ^ (m - k) = 2 * 2 ^ (m - (k + 1)) := by
      rw [← pow_succ']
      congr 1
      omega
    omega

/-- The key positional fact: entry `p / 2` of `levelUp l` hashes the
even/odd child window around position `p` of `l` (null right padding at
the tail, expressed through the `getD` default). -/
theorem levelUp_getD : ∀ (l : List Bytes) (p : Nat), p < l.length →
    (levelUp sha256_pair l).getD (p / 2) [] =
      if p % 2 = 0 then sha256_pair (l.getD p []) (l.getD (p + 1) nullHash)
      else sha256_pair (l.getD (p - 1) []) (l.getD p [])
  | [], p, hp => by simp at hp
  | [a], 0, _ => by simp
  | [a], p + 1, hp => by simp at hp
  | a :: b :: r, 0, _ => by simp
  | a :: b :: r, 1, _ => by simp
  | a :: b :: r, p + 2, hp => by
    have hp' : p < r.length := by simp at hp; omega
    have ih := levelUp_getD r p hp'
    have hdiv : (p + 2) / 2 = p / 2 + 1 := by omega
    have hmod : (p + 2) % 2 = p % 2 := by omega
    rw [hdiv, hmod, levelUp_cons_cons, List.getD_cons_succ, ih]
    rcases Nat.even_or_odd p with he | ho
    · have h0 : p % 2 = 0 := Nat.even_iff.mp he
      simp only [h0, if_true, reduceIte]
      congr 1
    · have h1 : p % 2 = 1 := Nat.odd_iff.mp ho
      obtain ⟨q, rfl⟩ : ∃ q, p = q + 1 := ⟨p - 1, by omega⟩
      rw [if_neg (by omega), if_neg (by omega)]
      congr 1

end Canonical

section Frontier

variable (sha256_pair : Bytes → Bytes → Bytes)

/-- Appending a digest to a level either appends a fresh pair hash (even
old length) or recomputes the final odd-tail pair in place (odd old
length). -/
theorem levelUp_snoc : ∀ (l : List Bytes) (d : Bytes),
    levelUp sha256_pair (l ++ [d]) =
      if l.length % 2 = 0 then levelUp sha256_pair l ++ [sha256_pair d nullHash]
      else (levelUp sha256_pair l).set (l.length / 2)
        (sha256_pair (l.getD (l.length - 1) []) d)
  | [], d => by simp
  | [a], d => by simp
  | a :: b :: r, d => by
    have ih := levelUp_snoc r d
    simp only [List.cons_append, levelUp_cons_cons, ih]
    by_cases h : r.length % 2 = 0
    · rw [if_pos h, if_pos (by simp; omega)]
    · rw [if_neg h, if_neg (by simp; omega)]
      have h1 : (a :: b :: r).length / 2 = r.length / 2 + 1 := by simp; omega
      rw [h1, List.set_cons_succ]
      congr 2
      have h2 : r.length - 1 + 2 = r.length + 1 := by omega
      simp only [List.length_cons]
      rw [show r.length + 1 + 1 - 1 = r.length - 1 + 2 by omega]
      simp [List.getD]

/-- Overwriting the final digest of a level recomputes exactly the final
pair hash of the level above. -/
theorem levelUp_set_last : ∀ (l : List Bytes) (d : Bytes), l ≠ [] →
    levelUp sha256_pair (l.set (l.length - 1) d) =
      (levelUp sha256_pair l).set ((l.length - 1) / 2)
        (if (l.length - 1) % 2 = 0 then sha256_pair d nullHash
         else sha256_pair (l.getD (l.length - 2) []) d)
  | [], _, h => absurd rfl h
  | [a], d, _ => by simp
  | [a, b], d, _ => by simp
  | a :: b :: c :: r, d, _ => by
    have ih := levelUp_set_last (c :: r) d (by simp)
    have hl : (a :: b :: c :: r).length - 1 = (c :: r).length - 1 + 2 := by
      simp only [List.length_cons]
      omega
    rw [hl, List.set_cons_succ, List.set_cons_succ, levelUp_cons_cons,
      levelUp_cons_cons, ih]
    have hd : ((c :: r).length - 1 + 2) / 2 = ((c :: r).length - 1) / 2 + 1 := by
      omega
    rw [hd, List.set_cons_succ]
    congr 2
    have hm : ((c :: r).length - 1 + 2) % 2 = ((c :: r).length - 1) % 2 := by
      omega
    rw [hm]
    by_cases h : ((c :: r).length - 1) % 2 = 0
    · rw [if_pos h, if_pos h]
    · rw [if_neg h, if_neg h]
      congr 1
      have hr : r ≠ [] := by
        intro hc
        subst hc
        simp at h
      have h2 : (a :: b :: c :: r).length - 2 = (c :: r).length - 2 + 2 := by
        simp
        have := List.length_pos.mpr hr
        omega
      rw [h2]
      simp [List.getD]

/-- The frontier relation: the second list extends the first by one final
element, or modifies only its final element. This is how canonical level
`k` for leaves `ds ++ [d]` relates to canonical level `k` for `ds`. -/
def FRel (lOld lNew : List Bytes) : Prop :=
  (∃ x, lNew = lOld ++ [x]) ∨
    (lOld ≠ [] ∧ ∃ x, lNew = lOld.set (lOld.length - 1) x)

theorem frel_levelUp {lOld lNew : List Bytes} (h : FRel lOld lNew) :
    FRel (levelUp sha256_pair lOld) (levelUp sha256_pair lNew) := by
  rcases h with ⟨x, rfl⟩ | ⟨hne, x, rfl⟩
  · rw [levelUp_snoc]
    by_cases hpar : lOld.length % 2 = 0
    · rw [if_pos hpar]
      exact Or.inl ⟨_, rfl⟩
    · rw [if_neg hpar]
      have hne2 : lOld ≠ [] := by
        intro hc
        subst hc
        simp at hpar
      have hpos : lOld.length / 2 = (levelUp sha256_pair lOld).length - 1 := by
        rw [levelUp_length]
        omega
      refine Or.inr ⟨levelUp_ne_nil sha256_pair hne2,
        sha256_pair (lOld.getD (lOld.length - 1) []) x, ?_⟩
      rw [hpos]
  · rw [levelUp_set_last sha256_pair lOld x hne]
    have hpos : (lOld.length - 1) / 2 = (levelUp sha256_pair lOld).length - 1 := by
      rw [levelUp_length]
      have := List.length_pos.mpr hne
      omega
    refine Or.inr ⟨levelUp_ne_nil sha256_pair hne,
      (if (lOld.length - 1) % 2 = 0 then sha256_pair x nullHash
       else sha256_pair (lOld.getD (lOld.length - 2) []) x), ?_⟩
    rw [hpos]

theorem frel_iterUp {ds : List Bytes} (d : Bytes) :
    ∀ k, FRel (iterUp sha256_pair k ds) (iterUp sha256_pair k (ds ++ [d]))
  | 0 => Or.inl ⟨d, rfl⟩
  | k + 1 => frel_levelUp sha256_pair (frel_iterUp d k)

theorem frel_length {lOld lNew : List Bytes} (h : FRel lOld lNew) :
    lNew.length = lOld.length + 1 ∨ (lOld ≠ [] ∧ lNew.length = lOld.length) := by
  rcases h with ⟨x, rfl⟩ | ⟨hne, x, rfl⟩
  · left; simp
  · right; exact ⟨hne, by simp⟩

/-- A frontier-related pair agrees everywhere strictly below the final
position of the new list. -/
theorem frel_getD_lt {lOld lNew : List Bytes} (h : FRel lOld lNew)
    {j : Nat} (hj : j < lNew.length - 1) :
    lOld.getD j [] = lNew.getD j [] := by
  rcases h with ⟨x, rfl⟩ | ⟨hne, x, rfl⟩
  · rw [List.getD_append]
    simp at hj
    omega
  · simp only [List.getD_eq_getElem?_getD]
    rw [List.getElem?_set_ne (by simp at hj; omega)]

end Frontier

/-! ## Canonical sibling path and the verification fold -/

section CanonProof

variable (sha256_pair : Bytes → Bytes → Bytes)

/-- One step of the sibling path at position `p` of a level with contents
`l`, exactly as the proof loop emits it. -/
def proofStepAt (l : List Bytes) (p : Nat) : MerkleProofHash :=
  if sibling_index p = l.length then MerkleProofHash.new_right nullHash
  else if sibling_index p = p + 1 then
    MerkleProofHash.new_right (l.getD (sibling_index p) [])
  else MerkleProofHash.new_left (l.getD (sibling_index p) [])

/-- The canonical sibling path of length `k` starting at position `p` of
level contents `l`. -/
def canonProof : Nat → List Bytes → Nat → List MerkleProofHash
  | 0, _, _ => []
  | k + 1, l, p =>
    proofStepAt l p :: canonProof k (levelUp sha256_pair l) (p / 2)

@[simp] theorem canonProof_zero (l : List Bytes) (p : Nat) :
    canonProof sha256_pair 0 l p = [] := rfl

@[simp] theorem canonProof_succ (k : Nat) (l : List Bytes) (p : Nat) :
    canonProof sha256_pair (k + 1) l p =
      proofStepAt l p :: canonProof sha256_pair k (levelUp sha256_pair l) (p / 2) := rfl

theorem canonProof_length : ∀ (k : Nat) (l : List Bytes) (p : Nat),
    (canonProof sha256_pair k l p).length = k
  | 0, _, _ => rfl
  | k + 1, l, p => by simp [canonProof_length k]

/-- Combining the running digest at position `p` with its emitted sibling
yields exactly the parent digest at position `p / 2`. -/
theorem foldStep_proofStepAt (l : List Bytes) (p : Nat) (hp : p < l.length) :
    foldStep sha256_pair (l.getD p []) (proofStepAt l p) =
      (levelUp sha256_pair l).getD (p / 2) [] := by
  rw [levelUp_getD sha256_pair l p hp]
  by_cases he : p % 2 = 0
  · have hs : sibling_index p = p + 1 := by simp [sibling_index, he]
    rw [if_pos he]
    by_cases hb : p + 1 = l.length
    · have hstep : proofStepAt l p = MerkleProofHash.new_right nullHash := by
        rw [proofStepAt, if_pos (by rw [hs, hb])]
      rw [hstep]
      simp only [foldStep, MerkleProofHash.new_right, List.getD_eq_getElem?_getD]
      rw [List.getElem?_eq_none (by omega : l.length ≤ p + 1)]
      rfl
    · have hlt : p + 1 < l.length := by omega
      have hstep : proofStepAt l p = MerkleProofHash.new_right (l.getD (p + 1) []) := by
        rw [proofStepAt, if_neg (by rw [hs]; omega), if_pos hs, hs]
      rw [hstep]
      simp only [foldStep, MerkleProofHash.new_right, List.getD_eq_getElem?_getD]
      rw [List.getElem?_eq_getElem hlt]
      rfl
  · have h1 : p % 2 = 1 := by omega
    have hp1 : 1 ≤ p := by omega
    have hs : sibling_index p = p - 1 := by simp [sibling_index, he]
    rw [if_neg he]
    have hstep : proofStepAt l p = MerkleProofHash.new_left (l.getD (p - 1) []) := by
      rw [proofStepAt, if_neg (by rw [hs]; omega), if_neg (by rw [hs]; omega), hs]
    rw [hstep]
    simp [foldStep, MerkleProofHash.new_left]

/-- Folding the verification step over the canonical sibling path carries
the digest at position `p` of the base level to the digest at position
`p / 2 ^ k` of the `k`-th level above. -/
theorem foldl_canonProof : ∀ (k : Nat) (l : List Bytes) (p : Nat), p < l.length →
    (canonProof sha256_pair k l p).foldl (foldStep sha256_pair) (l.getD p []) =
      (iterUp sha256_pair k l).getD (p / 2 ^ k) []
  | 0, l, p, _ => by simp
  | k + 1, l, p, hp => by
    have hlt : p / 2 < (levelUp sha256_pair l).length := by
      rw [levelUp_length]
      omega
    have ih := foldl_canonProof k (levelUp sha256_pair l) (p / 2) hlt
    rw [canonProof_succ, List.foldl_cons, foldStep_proofStepAt sha256_pair l p hp, ih,
      ← iterUp_succ_inner]
    congr 1
    rw [Nat.div_div_eq_div_mul, pow_succ]
    ring_nf

/-- The loop of `verify` computes a left fold. -/
theorem verify_loop_eq_foldl : ∀ (hs : List MerkleProofHash) (acc : Bytes),
    verify_loop sha256_pair hs acc = hs.foldl (foldStep sha256_pair) acc
  | [], _ => rfl
  | e :: rest, acc => by
    rw [verify_loop, List.foldl_cons, verify_loop_eq_foldl rest]
    rfl

/-- The shipped verifier agrees with the specification fold on every proof
value and every input digest. -/
theorem verify_eq_verifySpec (p : MerkleProof) (x : Bytes) :
    p.verify sha256_pair x = verifySpec sha256_pair p x := by
  obtain ⟨r, hs⟩ := p
  cases hs with
  | nil => rfl
  | cons h0 t =>
    show (verify_loop sha256_pair t (foldStep sha256_pair x h0) == r) = _
    rw [verify_loop_eq_foldl]
    rfl

end CanonProof

/-! ## Writing one frontier slot -/

section Writes

variable (sha256_pair : Bytes → Bytes → Bytes)

/-- `old` is `target` without its final element, or `target` with only its
final element differing. This is how a level's stored contents relate to
their desired contents just before the update loop writes the level. -/
def NearTarget (old target : List Bytes) : Prop :=
  old = target.dropLast ∨ ∃ y, old = target.dropLast ++ [y]

theorem set_snoc_last {α : Type} (l : List α) (y v : α) :
    (l ++ [y]).set l.length v = l ++ [v] := by
  induction l with
  | nil => rfl
  | cons a r ih => simp [ih]

theorem dropLast_append_getD {α : Type} (l : List α) (d : α) (h : l ≠ []) :
    l.dropLast ++ [l.getD (l.length - 1) d] = l := by
  have hpos := List.length_pos.mpr h
  rw [List.getD_eq_getElem l d (by omega)]
  have := List.dropLast_append_getLast h
  rwa [List.getLast_eq_getElem] at this

theorem set_last_eq {α : Type} : ∀ (l : List α), l ≠ [] → ∀ x : α,
    l.set (l.length - 1) x = l.dropLast ++ [x]
  | [_], _, _ => rfl
  | a :: b :: r, _, x => by
    have ih := set_last_eq (b :: r) (by simp) x
    simp only [List.length_cons] at ih ⊢
    rw [show r.length + 1 + 1 - 1 = r.length + 1 by omega, List.set_cons_succ]
    rw [show r.length + 1 - 1 = r.length by omega] at ih
    rw [ih]
    simp

theorem nearTarget_of_frel {old target : List Bytes} (h : FRel old target) :
    NearTarget old target := by
  rcases h with ⟨x, rfl⟩ | ⟨hne, x, rfl⟩
  · left
    simp
  · right
    refine ⟨old.getLast hne, ?_⟩
    rw [set_last_eq old hne x, List.dropLast_concat]
    exact (List.dropLast_append_getLast hne).symm

theorem nearTarget_nil {target : List Bytes} (h : target.length = 1) :
    NearTarget [] target := by
  left
  match target, h with
  | [a], _ => rfl

/-- Writing the final digest of the desired contents into a frontier slot
produces exactly the desired contents: the write appends when the slot is
absent and overwrites when it is stale. -/
theorem set_hash_at_to_target (lvl : MerkleTreeLevel) (target : List Bytes)
    (hne : target ≠ [])
    (hv : target.getD (target.length - 1) [] ≠ [])
    (hold : ∀ x ∈ lvl.hashes, x ≠ [])
    (hcap : target.length ≤ 2 ^ lvl.level)
    (hrel : NearTarget lvl.hashes target) :
    lvl.set_hash_at (target.length - 1) (target.getD (target.length - 1) []) =
      .ok ⟨lvl.level, target⟩ := by
  have hpos := List.length_pos.mpr hne
  have hdl : target.dropLast.length = target.length - 1 := by
    simp [List.length_dropLast]
  rcases hrel with hd | ⟨y, hy⟩
  · -- the slot is absent: append through push_hash
    rw [MerkleTreeLevel.set_hash_at, if_neg hv]
    have hlen : lvl.len = target.length - 1 := by
      rw [MerkleTreeLevel.len, hd, hdl]
    rw [if_neg (by omega), if_pos (by omega)]
    rw [MerkleTreeLevel.push_hash]
    rw [if_neg (by
      rw [hlen, MerkleTreeLevel.max_len, MerkleTreeLevel.max_len_at_level, two_pow_n]
      omega)]
    rw [if_neg (by
      rintro ⟨hne2, hlast⟩
      have hmem : lvl.hashes.getLastD [] ∈ lvl.hashes := by
        have hm := List.getLast_mem hne2
        rwa [List.getLastD_eq_getLast?, List.getLast?_eq_getLast _ hne2,
          Option.getD_some]
      exact hold _ hmem hlast)]
    rw [hd, dropLast_append_getD _ _ hne]
  · -- the slot is stale: overwrite in place
    rw [MerkleTreeLevel.set_hash_at, if_neg hv]
    have hlen : lvl.len = target.length := by
      rw [MerkleTreeLevel.len, hy]
      simp [hdl]
      omega
    rw [if_neg (by omega), if_neg (by omega)]
    congr 1
    rw [hy, show target.length - 1 = target.dropLast.length by omega,
      set_snoc_last, hdl, dropLast_append_getD _ _ hne]

@[simp] theorem MerkleTreeLevel.len_eq (l : MerkleTreeLevel) :
    l.len = l.hashes.length := rfl

theorem MerkleTreeLevel.max_len_eq (l : MerkleTreeLevel) :
    l.max_len = 2 ^ l.level := rfl

/-- On an in-range index over a level whose digests are all nonempty, the
guarded read returns the stored digest. -/
theorem get_hash_at_ok {lvl : MerkleTreeLevel} {i : Nat}
    (hi : i < lvl.hashes.length) (hne : ∀ x ∈ lvl.hashes, x ≠ []) :
    lvl.get_hash_at i = .ok (lvl.hashes.getD i []) := by
  have hmem : lvl.hashes.getD i [] ∈ lvl.hashes := by
    rw [List.getD_eq_getElem _ _ hi]
    exact List.getElem_mem hi
  rw [MerkleTreeLevel.get_hash_at, if_neg (by simp; omega), if_neg (hne _ hmem)]

/-- On an in-range position over a level whose digests are all nonempty, the
child-window hash is the corresponding entry of `levelUp`. -/
theorem hash_left_right_at_ok (sha256_pair : Bytes → Bytes → Bytes)
    {lvl : MerkleTreeLevel} {p : Nat}
    (hp : p < lvl.hashes.length) (hne : ∀ x ∈ lvl.hashes, x ≠ []) :
    lvl.hash_left_right_at sha256_pair p =
      .ok ((levelUp sha256_pair lvl.hashes).getD (p / 2) []) := by
  rw [levelUp_getD sha256_pair _ p hp, MerkleTreeLevel.hash_left_right_at]
  by_cases he : p % 2 = 0
  · have hlr : left_right_at p = (p, p + 1) := by simp [left_right_at, he]
    rw [hlr, if_pos he]
    simp only []
    rw [if_neg (by omega), if_neg (by simp; omega), get_hash_at_ok hp hne,
      Res.bind_ok]
    by_cases hb : p + 1 = lvl.hashes.length
    · rw [if_pos (by simp [hb]), Res.bind_ok]
      have hdef : lvl.hashes.getD (p + 1) nullHash = nullHash :=
        List.getD_eq_default _ _ (by omega)
      rw [hdef]
    · have hlt : p + 1 < lvl.hashes.length := by omega
      rw [if_neg (by simp; omega), get_hash_at_ok hlt hne, Res.bind_ok]
      have hgd : lvl.hashes.getD (p + 1) nullHash = lvl.hashes.getD (p + 1) [] := by
        rw [List.getD_eq_getElem _ _ hlt, List.getD_eq_getElem _ _ hlt]
      rw [hgd]
  · have h1 : p % 2 = 1 := by omega
    have hp1 : 1 ≤ p := by omega
    have hlr : left_right_at p = (p - 1, p) := by simp [left_right_at, he]
    rw [hlr, if_neg he]
    simp only []
    rw [if_neg (by omega), if_neg (by simp; omega),
      get_hash_at_ok (by omega : p - 1 < lvl.hashes.length) hne, Res.bind_ok,
      if_neg (by simp; omega), get_hash_at_ok hp hne, Res.bind_ok]

/-- Below the root and within the parent capacity the parent index is
`p / 2`. -/
theorem try_parent_index_ok {lvl : MerkleTreeLevel} {p : Nat}
    (h0 : lvl.level ≠ 0) (hcap : p / 2 < 2 ^ (lvl.level - 1)) :
    lvl.try_parent_index p = .ok (p / 2) := by
  rw [MerkleTreeLevel.try_parent_index, if_neg h0]
  simp only [MerkleTreeLevel.max_len_at_level, two_pow_n]
  rw [if_neg (by omega)]

end Writes

/-! ## The level vector of a tree, and the update loop invariant -/

/-- The level stored at vector index `j` (the empty level past the end). -/
def levelAt (t : MerkleTree) (j : Nat) : MerkleTreeLevel :=
  t.levels.getD j ⟨0, []⟩

theorem level_ok_of_lt {t : MerkleTree} {j : Nat}
    (h1 : j < t.levels.length) (h2 : t.levels.length < MAX_LEVEL_COUNT) :
    t.level j = .ok (levelAt t j) := by
  rw [MerkleTree.level, if_neg (by omega), if_neg (by omega), dif_pos h1]
  rw [levelAt, List.getD_eq_getElem _ _ h1]
  rfl

theorem level_count_ok {t : MerkleTree}
    (h1 : 0 < t.levels.length) (h2 : t.levels.length < MAX_LEVEL_COUNT) :
    t.level_count = .ok t.levels.length := by
  rw [MerkleTree.level_count, if_neg (by omega), if_neg (by omega)]

theorem levelAt_set_same {t : MerkleTree} {j : Nat} (x : MerkleTreeLevel)
    (h : j < t.levels.length) :
    levelAt ⟨t.levels.set j x⟩ j = x := by
  rw [levelAt]
  simp only [List.getD_eq_getElem?_getD]
  rw [List.getElem?_set_eq_of_lt x h]
  rfl

theorem levelAt_set_other {t : MerkleTree} {j i : Nat} (x : MerkleTreeLevel)
    (h : i ≠ j) :
    levelAt ⟨t.levels.set i x⟩ j = levelAt t j := by
  rw [levelAt, levelAt]
  simp only [List.getD_eq_getElem?_getD]
  rw [List.getElem?_set_ne h]

/-- The update loop invariant: levels up to `i` already hold their
canonical contents for the extended leaf list `ds'`, levels above `i` are
frontier-near their canonical contents, and `pos` is the final position of
level `i`. Running the loop from `i` completes every level. -/
theorem updateGo_ok (sha256_pair : Bytes → Bytes → Bytes)
    (Hne : ∀ a b, sha256_pair a b ≠ [])
    {ds' : List Bytes} (hds' : ds' ≠ []) (hmem : ∀ x ∈ ds', x ≠ [])
    {H : Nat} (hH : H < MAX_LEVEL_COUNT) :
    ∀ (k i : Nat) (t : MerkleTree) (pos : Nat),
      i + k = H - 1 →
      t.levels.length = H →
      (∀ j, j < H → (levelAt t j).level = H - 1 - j) →
      (∀ j, j ≤ i → j < H → (levelAt t j).hashes = iterUp sha256_pair j ds') →
      (∀ j, i < j → j < H →
        NearTarget (levelAt t j).hashes (iterUp sha256_pair j ds')) →
      (∀ j, j < H → ∀ x ∈ (levelAt t j).hashes, x ≠ []) →
      (∀ j, j < H → (iterUp sha256_pair j ds').length ≤ 2 ^ (H - 1 - j)) →
      pos = (iterUp sha256_pair i ds').length - 1 →
      ∃ t', updateGo sha256_pair k t pos i (H - 1) = .ok t' ∧
        t'.levels.length = H ∧
        (∀ j, j < H → (levelAt t' j).level = H - 1 - j) ∧
        (∀ j, j < H → (levelAt t' j).hashes = iterUp sha256_pair j ds')
  | 0, i, t, pos, hik, htlen, hord, hB, _, _, _, _ =>
    ⟨t, rfl, htlen, hord, fun j hj => hB j (by omega) hj⟩
  | k + 1, i, t, pos, hik, htlen, hord, hB, hC, hne, hcap, hpos => by
    have hstop : i < H - 1 := by omega
    have hiH : i < H := by omega
    have hi1H : i + 1 < H := by omega
    have hlvl : t.level i = .ok (levelAt t i) :=
      level_ok_of_lt (by omega) (by omega)
    have hhash : (levelAt t i).hashes = iterUp sha256_pair i ds' :=
      hB i le_rfl hiH
    have hm : 1 ≤ (iterUp sha256_pair i ds').length :=
      List.length_pos.mpr (iterUp_ne_nil sha256_pair hds' i)
    have hm1 : 1 ≤ (iterUp sha256_pair (i + 1) ds').length :=
      List.length_pos.mpr (iterUp_ne_nil sha256_pair hds' (i + 1))
    have hlensucc := iterUp_length_succ sha256_pair i ds'
    have hplt : pos < (levelAt t i).hashes.length := by
      rw [hhash]
      omega
    have hHLR := hash_left_right_at_ok sha256_pair hplt (hne i hiH)
    rw [hhash] at hHLR
    have hpos2 : pos / 2 = (iterUp sha256_pair (i + 1) ds').length - 1 := by
      rw [hlensucc]
      omega
    have hval : (levelUp sha256_pair (iterUp sha256_pair i ds')).getD (pos / 2) [] =
        (iterUp sha256_pair (i + 1) ds').getD
          ((iterUp sha256_pair (i + 1) ds').length - 1) [] := by
      rw [← iterUp_succ, hpos2]
    rw [hval] at hHLR
    have hordi : (levelAt t i).level = H - 1 - i := hord i hiH
    have hcap1 : (iterUp sha256_pair (i + 1) ds').length ≤ 2 ^ (H - 1 - (i + 1)) :=
      hcap (i + 1) hi1H
    have hexp : H - 1 - (i + 1) = H - 1 - i - 1 := by omega
    rw [hexp] at hcap1
    have hpar : (levelAt t i).try_parent_index pos = .ok (pos / 2) := by
      refine try_parent_index_ok (by omega) ?_
      rw [hordi]
      omega
    have hplvl : t.level (i + 1) = .ok (levelAt t (i + 1)) :=
      level_ok_of_lt (by omega) (by omega)
    have hvne : (iterUp sha256_pair (i + 1) ds').getD
        ((iterUp sha256_pair (i + 1) ds').length - 1) [] ≠ [] := by
      have hmm : (iterUp sha256_pair (i + 1) ds').getD
          ((iterUp sha256_pair (i + 1) ds').length - 1) [] ∈
            iterUp sha256_pair (i + 1) ds' := by
        rw [List.getD_eq_getElem _ _ (by omega)]
        exact List.getElem_mem (by omega)
      exact iterUp_mem_ne_nil sha256_pair Hne hmem (i + 1) _ hmm
    have hordi1 : (levelAt t (i + 1)).level = H - 1 - (i + 1) := hord (i + 1) hi1H
    have hw := set_hash_at_to_target
      (levelAt t (i + 1)) (iterUp sha256_pair (i + 1) ds')
      (iterUp_ne_nil sha256_pair hds' (i + 1)) hvne (hne (i + 1) hi1H)
      (by rw [hordi1, hexp]; exact hcap1)
      (hC (i + 1) (by omega) hi1H)
    rw [updateGo, if_pos hstop, hlvl, Res.bind_ok, hHLR, Res.bind_ok, hpar,
      Res.bind_ok, hplvl, Res.bind_ok, hpos2, hw, Res.bind_ok]
    refine updateGo_ok sha256_pair Hne hds' hmem hH k (i + 1)
      ⟨t.levels.set (i + 1)
        ⟨(levelAt t (i + 1)).level, iterUp sha256_pair (i + 1) ds'⟩⟩
      ((iterUp sha256_pair (i + 1) ds').length - 1)
      (by omega) (by simp [htlen]) ?_ ?_ ?_ ?_ hcap rfl
    · intro j hj
      by_cases hji : j = i + 1
      · subst hji
        rw [levelAt_set_same _ (by omega)]
        exact hordi1
      · rw [levelAt_set_other _ (fun hc => hji hc.symm)]
        exact hord j hj
    · intro j hj1 hj2
      by_cases hji : j = i + 1
      · subst hji
        rw [levelAt_set_same _ (by omega)]
      · rw [levelAt_set_other _ (fun hc => hji hc.symm)]
        exact hB j (by omega) hj2
    · intro j hj1 hj2
      have hji : j ≠ i + 1 := by omega
      rw [levelAt_set_other _ (fun hc => hji hc.symm)]
      exact hC j (by omega) hj2
    · intro j hj
      by_cases hji : j = i + 1
      · subst hji
        rw [levelAt_set_same _ (by omega)]
        exact iterUp_mem_ne_nil sha256_pair Hne hmem (i + 1)
      · rw [levelAt_set_other _ (fun hc => hji hc.symm)]
        exact hne j hj

/-! ## The reachable-state invariant -/

/-- The invariant tying a tree to the list `ds` of leaves inserted so far
(for nonempty `ds`): every level stores its canonical contents, ordinals
count down from the leaves, and the height is pinned by the two
power-of-two bounds. -/
def GoodTree (sha256_pair : Bytes → Bytes → Bytes) (ds : List Bytes)
    (t : MerkleTree) : Prop :=
  1 ≤ ds.length ∧
  2 ≤ t.levels.length ∧ t.levels.length ≤ 63 ∧
  ds.length ≤ 2 ^ (t.levels.length - 1) ∧
  2 ^ (t.levels.length - 2) < max ds.length 2 ∧
  (∀ j, j < t.levels.length → (levelAt t j).hashes = iterUp sha256_pair j ds) ∧
  (∀ j, j < t.levels.length →
    (levelAt t j).level = t.levels.length - 1 - j)

theorem incLevelsGo_ok : ∀ ls : List MerkleTreeLevel,
    (∀ l ∈ ls, l.level < MAX_LEVEL_COUNT) →
    incLevelsGo ls = .ok (ls.map fun l => ⟨l.level + 1, l.hashes⟩)
  | [], _ => rfl
  | l :: ls, h => by
    rw [incLevelsGo, MerkleTreeLevel.inc_level,
      if_pos (h l (List.mem_cons_self l ls)), Res.bind_ok,
      incLevelsGo_ok ls (fun x hx => h x (List.mem_cons_of_mem l hx)),
      Res.bind_ok, List.map_cons]

theorem push_assert_false {lvl : MerkleTreeLevel}
    (hne : ∀ x ∈ lvl.hashes, x ≠ []) :
    ¬(lvl.hashes ≠ [] ∧ lvl.hashes.getLastD [] = []) := by
  rintro ⟨hne2, hlast⟩
  have hmem : lvl.hashes.getLastD [] ∈ lvl.hashes := by
    have hm := List.getLast_mem hne2
    rwa [List.getLastD_eq_getLast?, List.getLast?_eq_getLast _ hne2,
      Option.getD_some]
  exact hne _ hmem hlast

theorem add_hash_ok {lvl : MerkleTreeLevel} (d : Bytes)
    (hfull : lvl.hashes.length < 2 ^ lvl.level)
    (hne : ∀ x ∈ lvl.hashes, x ≠ []) :
    lvl.add_hash d = .ok ⟨lvl.level, lvl.hashes ++ [d]⟩ := by
  rw [MerkleTreeLevel.add_hash, MerkleTreeLevel.push_hash,
    if_neg (by rw [MerkleTreeLevel.max_len_eq]; simp; omega),
    if_neg (push_assert_false hne)]

theorem is_empty_false_of_good {sha256_pair : Bytes → Bytes → Bytes}
    {ds : List Bytes} {t : MerkleTree} (hg : GoodTree sha256_pair ds t) :
    t.is_empty = .ok false := by
  obtain ⟨_, h2, h3, _, _, _, _⟩ := hg
  rw [MerkleTree.is_empty,
    level_count_ok (by omega) (by unfold MAX_LEVEL_COUNT; omega), Res.bind_ok,
    if_neg (by omega)]

theorem leaves_ok_of_good {sha256_pair : Bytes → Bytes → Bytes}
    {ds : List Bytes} {t : MerkleTree} (hg : GoodTree sha256_pair ds t) :
    t.leaves = .ok (levelAt t 0) := by
  obtain ⟨_, h2, h3, _, _, _, _⟩ := hg
  exact level_ok_of_lt (by omega) (by unfold MAX_LEVEL_COUNT; omega)

theorem leaves_hashes_of_good {sha256_pair : Bytes → Bytes → Bytes}
    {ds : List Bytes} {t : MerkleTree} (hg : GoodTree sha256_pair ds t) :
    (levelAt t 0).hashes = ds := by
  obtain ⟨_, h2, _, _, _, h6, _⟩ := hg
  exact h6 0 (by omega)

theorem leaves_level_of_good {sha256_pair : Bytes → Bytes → Bytes}
    {ds : List Bytes} {t : MerkleTree} (hg : GoodTree sha256_pair ds t) :
    (levelAt t 0).level = t.levels.length - 1 := by
  obtain ⟨_, h2, _, _, _, _, h7⟩ := hg
  have := h7 0 (by omega)
  omega

theorem levelAt_map {t : MerkleTree} {j : Nat} (f : MerkleTreeLevel → MerkleTreeLevel)
    (h : j < t.levels.length) :
    levelAt ⟨t.levels.map f⟩ j = f (levelAt t j) := by
  rw [levelAt, levelAt, List.getD_eq_getElem _ _ (by simpa using h),
    List.getD_eq_getElem _ _ h, List.getElem_map]

theorem levelAt_append_sing (ls : List MerkleTreeLevel) (x : MerkleTreeLevel)
    {j : Nat} (h : j ≤ ls.length) :
    levelAt ⟨ls ++ [x]⟩ j = if j = ls.length then x else levelAt ⟨ls⟩ j := by
  by_cases hj : j = ls.length
  · subst hj
    rw [if_pos rfl, levelAt, List.getD_eq_getElem _ _ (by simp)]
    simp
  · rw [if_neg hj, levelAt, levelAt,
      List.getD_eq_getElem _ _ (by simp; omega),
      List.getD_eq_getElem _ _ (by show j < ls.length; omega),
      List.getElem_append_left (by omega)]

/-- `inc_leaves_level` on a good tree: panics when the tree already has 63
levels (the post-push root read trips the `level_count` assertion),
otherwise bumps every ordinal and appends the fresh root level. -/
theorem inc_leaves_level_of_good {sha256_pair : Bytes → Bytes → Bytes}
    {ds : List Bytes} {t : MerkleTree} (hg : GoodTree sha256_pair ds t) :
    (t.levels.length = 63 ∧ t.inc_leaves_level = .panicked) ∨
    (t.levels.length ≤ 62 ∧ t.inc_leaves_level =
      .ok ⟨(t.levels.map fun l => ⟨l.level + 1, l.hashes⟩) ++
        [MerkleTreeLevel.new]⟩) := by
  obtain ⟨hn, hh2, hh63, hcap, hlow, hB, hord⟩ := hg
  have hordlt : ∀ l ∈ t.levels, l.level < MAX_LEVEL_COUNT := by
    intro l hl
    obtain ⟨j, hj, rfl⟩ := List.getElem_of_mem hl
    have : levelAt t j = t.levels[j] := by
      rw [levelAt, List.getD_eq_getElem _ _ hj]
    rw [← this, hord j hj]
    unfold MAX_LEVEL_COUNT
    omega
  rw [MerkleTree.inc_leaves_level, incLevelsGo_ok t.levels hordlt, Res.bind_ok]
  have hmlen : (t.levels.map fun l =>
      (⟨l.level + 1, l.hashes⟩ : MerkleTreeLevel)).length = t.levels.length := by
    simp
  rw [MerkleTree.root,
    level_count_ok (by simp; omega) (by simp; unfold MAX_LEVEL_COUNT; omega),
    Res.bind_ok, hmlen,
    level_ok_of_lt (by simp; omega) (by simp; unfold MAX_LEVEL_COUNT; omega),
    Res.bind_ok]
  have hroot1 : (levelAt ⟨t.levels.map fun l => ⟨l.level + 1, l.hashes⟩⟩
      (t.levels.length - 1)).level = 1 := by
    rw [levelAt_map _ (by omega)]
    have := hord (t.levels.length - 1) (by omega)
    simp only []
    omega
  rw [if_neg (by rw [hroot1]; omega)]
  by_cases h63 : t.levels.length = 63
  · left
    refine ⟨h63, ?_⟩
    rw [MerkleTree.root, MerkleTree.level_count,
      if_neg (by simp), if_pos (by simp; unfold MAX_LEVEL_COUNT; omega),
      Res.bind_panicked, Res.bind_panicked]
  · right
    refine ⟨by omega, ?_⟩
    rw [MerkleTree.root,
      level_count_ok (by simp)
        (by simp; unfold MAX_LEVEL_COUNT; omega),
      Res.bind_ok,
      level_ok_of_lt (by simp)
        (by simp; unfold MAX_LEVEL_COUNT; omega),
      Res.bind_ok]
    have hnew : levelAt ⟨(t.levels.map fun l => ⟨l.level + 1, l.hashes⟩) ++
        [MerkleTreeLevel.new]⟩ ((t.levels.map fun l =>
          (⟨l.level + 1, l.hashes⟩ : MerkleTreeLevel)).length + 1 - 1) =
        MerkleTreeLevel.new := by
      rw [show (t.levels.map fun l =>
          (⟨l.level + 1, l.hashes⟩ : MerkleTreeLevel)).length + 1 - 1 =
          (t.levels.map fun l =>
            (⟨l.level + 1, l.hashes⟩ : MerkleTreeLevel)).length by omega]
      rw [levelAt_append_sing _ _ le_rfl, if_pos rfl]
    simp only [List.length_append, List.length_cons, List.length_nil, hmlen]
    rw [show t.levels.length + (0 + 1) - 1 = t.levels.length by omega]
    have hnew2 : levelAt ⟨(t.levels.map fun l => ⟨l.level + 1, l.hashes⟩) ++
        [MerkleTreeLevel.new]⟩ t.levels.length = MerkleTreeLevel.new := by
      rw [levelAt_append_sing _ _ (by simp), if_pos (by simp)]
    rw [hnew2]
    rw [if_neg (by rw [MerkleTreeLevel.new]; simp)]

/-- The tail of `add_leaf` after the optional height growth: append the
digest to the leaves level and run the update loop. Stated over any
pre-state whose leaves hold `ds`, whose upper levels are frontier-near
their canonical contents for `ds ++ [d]`, and whose height accommodates
the new leaf. -/
theorem add_leaf_update_part (sha256_pair : Bytes → Bytes → Bytes)
    (Hne : ∀ a b, sha256_pair a b ≠ [])
    {ds : List Bytes} {d : Bytes} (hmem' : ∀ x ∈ ds ++ [d], x ≠ [])
    (t1 : MerkleTree) (H : Nat)
    (hH2 : 2 ≤ H) (hH63 : H ≤ 63)
    (hlen : t1.levels.length = H)
    (hcap' : (ds ++ [d]).length ≤ 2 ^ (H - 1))
    (hord1 : ∀ j, j < H → (levelAt t1 j).level = H - 1 - j)
    (hhash0 : (levelAt t1 0).hashes = ds)
    (hC1 : ∀ j, 1 ≤ j → j < H →
      NearTarget (levelAt t1 j).hashes (iterUp sha256_pair j (ds ++ [d])))
    (hne1 : ∀ j, j < H → ∀ x ∈ (levelAt t1 j).hashes, x ≠ []) :
    ∃ t', (Res.bind t1.leaves fun leaves0 =>
        Res.bind (leaves0.add_hash d) fun leaves1 =>
          Res.bind
            (MerkleTree.update_at sha256_pair ⟨t1.levels.set 0 leaves1⟩
              (leaves1.len - 1)) fun t3 =>
            .ok (leaves1.len - 1, t3))
      = .ok (ds.length, t') ∧
      t'.levels.length = H ∧
      (∀ j, j < H → (levelAt t' j).level = H - 1 - j) ∧
      (∀ j, j < H → (levelAt t' j).hashes = iterUp sha256_pair j (ds ++ [d])) := by
  have hl0 : levelAt t1 0 = ⟨H - 1, ds⟩ := by
    rcases hlv : levelAt t1 0 with ⟨a, b⟩
    have h1 := hord1 0 (by omega)
    have h2 := hhash0
    rw [hlv] at h1 h2
    simp only [] at h1 h2
    rw [h1, h2]
    simp
  have hnlt : ds.length < 2 ^ (H - 1) := by
    have := hcap'
    simp at this
    omega
  have hleaves1 : t1.leaves = .ok (⟨H - 1, ds⟩ : MerkleTreeLevel) := by
    rw [MerkleTree.leaves,
      level_ok_of_lt (by omega) (by unfold MAX_LEVEL_COUNT; omega), hl0]
  have haddh : (⟨H - 1, ds⟩ : MerkleTreeLevel).add_hash d =
      .ok ⟨H - 1, ds ++ [d]⟩ :=
    add_hash_ok d (by simpa using hnlt)
      (by intro x hx; exact hmem' x (List.mem_append_left _ hx))
  have hlen1 : (⟨H - 1, ds ++ [d]⟩ : MerkleTreeLevel).len - 1 = ds.length := by
    simp
  have hord2 : ∀ j, j < H →
      (levelAt ⟨t1.levels.set 0 ⟨H - 1, ds ++ [d]⟩⟩ j).level = H - 1 - j := by
    intro j hj
    by_cases hj0 : j = 0
    · subst hj0
      rw [levelAt_set_same _ (by omega)]
      simp
    · rw [levelAt_set_other _ (fun hc => hj0 hc.symm)]
      exact hord1 j hj
  have hB2 : ∀ j, j ≤ 0 → j < H →
      (levelAt ⟨t1.levels.set 0 ⟨H - 1, ds ++ [d]⟩⟩ j).hashes =
        iterUp sha256_pair j (ds ++ [d]) := by
    intro j hj0 _
    have : j = 0 := by omega
    subst this
    rw [levelAt_set_same _ (by omega)]
    rfl
  have hC2 : ∀ j, 0 < j → j < H →
      NearTarget (levelAt ⟨t1.levels.set 0 ⟨H - 1, ds ++ [d]⟩⟩ j).hashes
        (iterUp sha256_pair j (ds ++ [d])) := by
    intro j hj1 hj2
    rw [levelAt_set_other _ (by omega)]
    exact hC1 j (by omega) hj2
  have hne2 : ∀ j, j < H →
      ∀ x ∈ (levelAt ⟨t1.levels.set 0 ⟨H - 1, ds ++ [d]⟩⟩ j).hashes, x ≠ [] := by
    intro j hj
    by_cases hj0 : j = 0
    · subst hj0
      rw [levelAt_set_same _ (by omega)]
      exact hmem'
    · rw [levelAt_set_other _ (fun hc => hj0 hc.symm)]
      exact hne1 j hj
  have hcap2 : ∀ j, j < H →
      (iterUp sha256_pair j (ds ++ [d])).length ≤ 2 ^ (H - 1 - j) := by
    intro j hj
    exact iterUp_length_le sha256_pair hcap' j (by omega)
  obtain ⟨t', hupeq, hq1, hq2, hq3⟩ :=
    updateGo_ok sha256_pair Hne (show ds ++ [d] ≠ [] by simp) hmem'
      (show H < MAX_LEVEL_COUNT by unfold MAX_LEVEL_COUNT; omega)
      (H - 1) 0 ⟨t1.levels.set 0 ⟨H - 1, ds ++ [d]⟩⟩ ds.length
      (by omega) (by simp [hlen]) hord2 hB2 hC2 hne2 hcap2 (by simp)
  refine ⟨t', ?_, hq1, hq2, hq3⟩
  rw [hleaves1, Res.bind_ok, haddh, Res.bind_ok, hlen1, MerkleTree.update_at,
    level_count_ok (by simp [hlen]; omega)
      (by simp [hlen]; unfold MAX_LEVEL_COUNT; omega),
    Res.bind_ok,
    show (⟨t1.levels.set 0 ⟨H - 1, ds ++ [d]⟩⟩ : MerkleTree).levels.length = H by
      simp [hlen],
    hupeq, Res.bind_ok]

/-- `add_leaf` on a good tree with a nonempty digest: it panics exactly
when a 64th level would be needed, and otherwise returns the old leaf
count as the new index and preserves the invariant for the extended leaf
list. -/
theorem add_leaf_good (sha256_pair : Bytes → Bytes → Bytes)
    (Hne : ∀ a b, sha256_pair a b ≠ [])
    {ds : List Bytes} {t : MerkleTree} (hg : GoodTree sha256_pair ds t)
    (hmem : ∀ x ∈ ds, x ≠ []) {d : Bytes} (hd : d ≠ []) :
    (t.levels.length = 63 ∧ 2 ^ 62 ≤ ds.length ∧
      t.add_leaf sha256_pair d = .panicked) ∨
    (∃ t', t.add_leaf sha256_pair d = .ok (ds.length, t') ∧
      GoodTree sha256_pair (ds ++ [d]) t') := by
  obtain ⟨hn, hh2, hh63, hcap, hlow, hB, hord⟩ := hg
  have hg' : GoodTree sha256_pair ds t := ⟨hn, hh2, hh63, hcap, hlow, hB, hord⟩
  have hmem' : ∀ x ∈ ds ++ [d], x ≠ [] := by
    intro x hx
    rcases List.mem_append.mp hx with h | h
    · exact hmem x h
    · rw [List.mem_singleton.mp h]
      exact hd
  have hlv0h : (levelAt t 0).hashes = ds := leaves_hashes_of_good hg'
  have hlv0l : (levelAt t 0).level = t.levels.length - 1 :=
    leaves_level_of_good hg'
  have hpow : 2 ^ t.levels.length = 2 * 2 ^ (t.levels.length - 1) := by
    conv_lhs => rw [show t.levels.length = (t.levels.length - 1) + 1 by omega]
    rw [pow_succ']
  rw [MerkleTree.add_leaf, leaves_ok_of_good hg', Res.bind_ok]
  by_cases hfull : 2 ^ (t.levels.length - 1) ≤ ds.length
  · -- the leaves level is full: the tree grows by one level
    have hfulleq : ds.length = 2 ^ (t.levels.length - 1) :=
      le_antisymm hcap hfull
    have hfullb : (levelAt t 0).is_full = true := by
      rw [MerkleTreeLevel.is_full, MerkleTreeLevel.max_len_eq, hlv0l,
        MerkleTreeLevel.len_eq, hlv0h]
      exact decide_eq_true hfull
    rw [hfullb, if_pos rfl]
    rcases inc_leaves_level_of_good hg' with ⟨h63, hpan⟩ | ⟨hle, hok⟩
    · left
      refine ⟨h63, by rw [hfulleq, h63], ?_⟩
      rw [hpan, Res.bind_panicked]
    · right
      rw [hok, Res.bind_ok]
      have hmaplen : (t.levels.map fun l =>
          (⟨l.level + 1, l.hashes⟩ : MerkleTreeLevel)).length =
            t.levels.length := by simp
      have hcapg : (ds ++ [d]).length ≤ 2 ^ (t.levels.length + 1 - 1) := by
        rw [show t.levels.length + 1 - 1 = t.levels.length by omega]
        simp
        omega
      have hordg : ∀ j, j < t.levels.length + 1 →
          (levelAt ⟨(t.levels.map fun l => ⟨l.level + 1, l.hashes⟩) ++
            [MerkleTreeLevel.new]⟩ j).level = t.levels.length + 1 - 1 - j := by
        intro j hj
        rw [levelAt_append_sing _ _ (by rw [hmaplen]; omega)]
        by_cases hjh : j = (t.levels.map fun l =>
            (⟨l.level + 1, l.hashes⟩ : MerkleTreeLevel)).length
        · rw [if_pos hjh, MerkleTreeLevel.new]
          rw [hmaplen] at hjh
          show 0 = t.levels.length + 1 - 1 - j
          omega
        · rw [if_neg hjh, levelAt_map _ (by rw [hmaplen] at hjh; omega)]
          rw [hmaplen] at hjh
          have := hord j (by omega)
          simp only []
          omega
      have hhashg : ∀ j, j < t.levels.length →
          (levelAt ⟨(t.levels.map fun l => ⟨l.level + 1, l.hashes⟩) ++
            [MerkleTreeLevel.new]⟩ j).hashes = iterUp sha256_pair j ds := by
        intro j hj
        rw [levelAt_append_sing _ _ (by rw [hmaplen]; omega),
          if_neg (by rw [hmaplen]; omega), levelAt_map _ hj]
        have := hB j hj
        simp only []
        exact this
      have htoplen : (iterUp sha256_pair (t.levels.length) (ds ++ [d])).length
          = 1 := by
        have hc : (ds ++ [d]).length ≤ 2 ^ t.levels.length := by
          have hcg := hcapg
          rwa [show t.levels.length + 1 - 1 = t.levels.length by omega] at hcg
        have hle1 := iterUp_length_le sha256_pair hc t.levels.length le_rfl
        have hge1 : 1 ≤ (iterUp sha256_pair t.levels.length (ds ++ [d])).length :=
          List.length_pos.mpr (iterUp_ne_nil sha256_pair (by simp) _)
        simp at hle1
        omega
      have hCg : ∀ j, 1 ≤ j → j < t.levels.length + 1 →
          NearTarget (levelAt ⟨(t.levels.map fun l => ⟨l.level + 1, l.hashes⟩) ++
            [MerkleTreeLevel.new]⟩ j).hashes
            (iterUp sha256_pair j (ds ++ [d])) := by
        intro j hj1 hj2
        by_cases hjh : j = t.levels.length
        · subst hjh
          rw [levelAt_append_sing _ _ (by rw [hmaplen]),
            if_pos hmaplen.symm, MerkleTreeLevel.new]
          exact nearTarget_nil htoplen
        · rw [hhashg j (by omega)]
          exact nearTarget_of_frel (frel_iterUp sha256_pair d j)
      have hneg : ∀ j, j < t.levels.length + 1 →
          ∀ x ∈ (levelAt ⟨(t.levels.map fun l => ⟨l.level + 1, l.hashes⟩) ++
            [MerkleTreeLevel.new]⟩ j).hashes, x ≠ [] := by
        intro j hj
        by_cases hjh : j = t.levels.length
        · subst hjh
          rw [levelAt_append_sing _ _ (by rw [hmaplen]),
            if_pos hmaplen.symm, MerkleTreeLevel.new]
          intro x hx
          simp at hx
        · rw [hhashg j (by omega)]
          exact iterUp_mem_ne_nil sha256_pair Hne hmem j
      obtain ⟨t', hmain, hq1, hq2, hq3⟩ := add_leaf_update_part sha256_pair Hne
        hmem' ⟨(t.levels.map fun l => ⟨l.level + 1, l.hashes⟩) ++
          [MerkleTreeLevel.new]⟩ (t.levels.length + 1)
        (by omega) (by omega) (by simp) hcapg hordg
        (by rw [hhashg 0 (by omega)]; exact iterUp_zero sha256_pair ds) hCg hneg
      refine ⟨t', hmain, by simp, by omega, by omega, ?_, ?_, ?_, ?_⟩
      · rw [hq1]
        rw [show t.levels.length + 1 - 1 = t.levels.length by omega]
        simp
        omega
      · rw [hq1, show t.levels.length + 1 - 2 = t.levels.length - 1 by omega]
        simp
        omega
      · intro j hj
        rw [hq1] at hj
        exact hq3 j hj
      · intro j hj
        rw [hq1] at hj
        rw [hq1]
        exact hq2 j hj
  · -- the leaves level has room: no growth
    have hfullb : (levelAt t 0).is_full = false := by
      rw [MerkleTreeLevel.is_full, MerkleTreeLevel.max_len_eq, hlv0l,
        MerkleTreeLevel.len_eq, hlv0h]
      exact decide_eq_false hfull
    rw [hfullb, if_neg (by simp), is_empty_false_of_good hg', Res.bind_ok,
      if_neg (by simp), Res.bind_ok]
    right
    obtain ⟨t', hmain, hq1, hq2, hq3⟩ := add_leaf_update_part sha256_pair Hne
      hmem' t t.levels.length hh2 hh63 rfl
      (by simp; omega) hord hlv0h
      (by
        intro j hj1 hj2
        rw [hB j hj2]
        exact nearTarget_of_frel (frel_iterUp sha256_pair d j))
      (by
        intro j hj
        rw [hB j hj]
        exact iterUp_mem_ne_nil sha256_pair Hne hmem j)
    refine ⟨t', hmain, by simp, by rw [hq1]; omega, by rw [hq1]; omega,
      ?_, ?_, ?_, ?_⟩
    · rw [hq1]
      simp
      omega
    · rw [hq1]
      simp
      omega
    · intro j hj
      rw [hq1] at hj
      exact hq3 j hj
    · intro j hj
      rw [hq1] at hj
      rw [hq1]
      exact hq2 j hj

/-- The very first `add_leaf`, on the freshly constructed empty tree. -/
theorem add_leaf_new (sha256_pair : Bytes → Bytes → Bytes)
    (Hne : ∀ a b, sha256_pair a b ≠ []) {d : Bytes} (hd : d ≠ []) :
    ∃ t', MerkleTree.new.add_leaf sha256_pair d = .ok (0, t') ∧
      GoodTree sha256_pair [d] t' := by
  have hmem' : ∀ x ∈ ([] : List Bytes) ++ [d], x ≠ [] := by
    intro x hx
    simp at hx
    subst hx
    exact hd
  obtain ⟨t', hmain, hq1, hq2, hq3⟩ := add_leaf_update_part sha256_pair Hne
    hmem' ⟨[⟨1, []⟩, ⟨0, []⟩]⟩ 2 le_rfl (by omega) rfl
    (by simp)
    (by intro j hj; interval_cases j <;> rfl)
    rfl
    (by
      intro j hj1 hj2
      have hj : j = 1 := by omega
      subst hj
      exact nearTarget_nil rfl)
    (by
      intro j hj x hx
      interval_cases j <;> simp [levelAt] at hx)
  refine ⟨t', ?_, ?_⟩
  · rw [MerkleTree.add_leaf]
    have h1 : MerkleTree.new.leaves = .ok ⟨0, []⟩ := rfl
    have h2 : (⟨0, []⟩ : MerkleTreeLevel).is_full = false := rfl
    have h3 : MerkleTree.new.is_empty = .ok true := rfl
    have h4 : MerkleTree.new.inc_leaves_level = .ok ⟨[⟨1, []⟩, ⟨0, []⟩]⟩ := rfl
    rw [h1, Res.bind_ok, h2, if_neg (by simp), h3, Res.bind_ok, if_pos rfl,
      h4, Res.bind_ok, hmain]
    rfl
  · refine ⟨by simp, by omega, by omega, ?_, ?_, ?_, ?_⟩
    · rw [hq1]
      simp
    · rw [hq1]
      simp
    · intro j hj
      rw [hq1] at hj
      exact hq3 j hj
    · intro j hj
      rw [hq1] at hj
      rw [hq1]
      exact hq2 j hj

/-- The trees (and leaf lists) produced by a sequence of successful
`add_leaf` calls starting from the freshly constructed tree. -/
inductive ReachableTree (sha256_pair : Bytes → Bytes → Bytes) :
    List Bytes → MerkleTree → Prop where
  | base : ReachableTree sha256_pair [] MerkleTree.new
  | step {ds : List Bytes} {t : MerkleTree} {d : Bytes} {i : Nat}
      {t' : MerkleTree} : ReachableTree sha256_pair ds t →
      t.add_leaf sha256_pair d = .ok (i, t') →
      ReachableTree sha256_pair (ds ++ [d]) t'

/-- Every reachable tree with nonempty digests is the empty tree or
satisfies the canonical invariant. -/
theorem good_of_reachable (sha256_pair : Bytes → Bytes → Bytes)
    (Hne : ∀ a b, sha256_pair a b ≠ []) {ds : List Bytes} {t : MerkleTree}
    (hr : ReachableTree sha256_pair ds t) (hmem : ∀ x ∈ ds, x ≠ []) :
    (ds = [] ∧ t = MerkleTree.new) ∨ GoodTree sha256_pair ds t := by
  induction hr with
  | base => exact Or.inl ⟨rfl, rfl⟩
  | @step ds t d i t' hprev hadd ih =>
    right
    have hd : d ≠ [] := hmem d (by simp)
    rcases ih (fun x hx => hmem x (List.mem_append_left _ hx)) with ⟨hds, hts⟩ | hgood
    · subst hds
      subst hts
      obtain ⟨t'', hmain, hgood'⟩ := add_leaf_new sha256_pair Hne hd
      rw [hmain] at hadd
      have ht : t'' = t' := by
        cases hadd
        rfl
      rw [← ht]
      exact hgood'
    · rcases add_leaf_good sha256_pair Hne hgood
        (fun x hx => hmem x (List.mem_append_left _ hx)) hd with
        ⟨_, _, hpan⟩ | ⟨t'', hok, hgood'⟩
      · rw [hpan] at hadd
        cases hadd
      · rw [hok] at hadd
        have ht : t'' = t' := by
          cases hadd
          rfl
        rw [← ht]
        exact hgood'

/-- The root digest of a good tree is the single entry of the top canonical
level. -/
theorem root_hash_of_good (sha256_pair : Bytes → Bytes → Bytes)
    (Hne : ∀ a b, sha256_pair a b ≠ []) {ds : List Bytes} {t : MerkleTree}
    (hg : GoodTree sha256_pair ds t) (hmem : ∀ x ∈ ds, x ≠ []) :
    t.root_hash = .ok
      ((iterUp sha256_pair (t.levels.length - 1) ds).getD 0 []) := by
  obtain ⟨hn, hh2, hh63, hcap, hlow, hB, hord⟩ := hg
  have hds : ds ≠ [] := by
    intro hc
    subst hc
    simp at hn
  have htop : (levelAt t (t.levels.length - 1)).hashes =
      iterUp sha256_pair (t.levels.length - 1) ds :=
    hB _ (by omega)
  have hlenpos : 0 < (iterUp sha256_pair (t.levels.length - 1) ds).length :=
    List.length_pos.mpr (iterUp_ne_nil sha256_pair hds _)
  rw [MerkleTree.root_hash, MerkleTree.root,
    level_count_ok (by omega) (by unfold MAX_LEVEL_COUNT; omega), Res.bind_ok,
    level_ok_of_lt (by omega) (by unfold MAX_LEVEL_COUNT; omega), Res.bind_ok,
    get_hash_at_ok (by rw [htop]; omega)
      (by rw [htop]; exact iterUp_mem_ne_nil sha256_pair Hne hmem _),
    htop]

/-- The sibling-path loop of `proof_at` produces the canonical sibling
path. -/
theorem proofGo_ok (sha256_pair : Bytes → Bytes → Bytes)
    (Hne : ∀ a b, sha256_pair a b ≠ [])
    {ds : List Bytes} (hds : ds ≠ []) (hmem : ∀ x ∈ ds, x ≠ [])
    {H : Nat} (hH : H < MAX_LEVEL_COUNT) {t : MerkleTree}
    (htlen : t.levels.length = H)
    (hord : ∀ j, j < H → (levelAt t j).level = H - 1 - j)
    (hB : ∀ j, j < H → (levelAt t j).hashes = iterUp sha256_pair j ds)
    (hcap : ∀ j, j < H → (iterUp sha256_pair j ds).length ≤ 2 ^ (H - 1 - j)) :
    ∀ (k i pos : Nat) (acc : List MerkleProofHash),
      i + k = H - 1 →
      pos < (iterUp sha256_pair i ds).length →
      proofGo t k pos i (H - 1) acc =
        .ok (acc ++ canonProof sha256_pair k (iterUp sha256_pair i ds) pos)
  | 0, i, pos, acc, hik, hpos => by
    rw [proofGo]
    simp
  | k + 1, i, pos, acc, hik, hpos => by
    have hstop : i < H - 1 := by omega
    have hiH : i < H := by omega
    have hlvl : t.level i = .ok (levelAt t i) :=
      level_ok_of_lt (by omega) (by omega)
    have hhash : (levelAt t i).hashes = iterUp sha256_pair i ds := hB i hiH
    have hmemI : ∀ x ∈ (levelAt t i).hashes, x ≠ [] := by
      rw [hhash]
      exact iterUp_mem_ne_nil sha256_pair Hne hmem i
    have hordi : (levelAt t i).level = H - 1 - i := hord i hiH
    have hcapi : (iterUp sha256_pair i ds).length ≤ 2 ^ (H - 1 - i) :=
      hcap i hiH
    have hcapi1 : (iterUp sha256_pair (i + 1) ds).length ≤
        2 ^ (H - 1 - i - 1) := by
      have := hcap (i + 1) (by omega)
      rwa [show H - 1 - (i + 1) = H - 1 - i - 1 by omega] at this
    have hpow2 : 2 ^ (H - 1 - i) = 2 * 2 ^ (H - 1 - i - 1) := by
      rw [← pow_succ']
      congr 1
      omega
    have hlen1 : (iterUp sha256_pair (i + 1) ds).length =
        ((iterUp sha256_pair i ds).length + 1) / 2 :=
      iterUp_length_succ sha256_pair i ds
    have hm1 : 1 ≤ (iterUp sha256_pair (i + 1) ds).length :=
      List.length_pos.mpr (iterUp_ne_nil sha256_pair hds (i + 1))
    have hparcap : pos / 2 < 2 ^ (H - 1 - i - 1) := by omega
    have hpar : (levelAt t i).try_parent_index pos = .ok (pos / 2) :=
      try_parent_index_ok (by omega) (by rw [hordi]; exact hparcap)
    have hrec := proofGo_ok sha256_pair Hne hds hmem hH htlen hord hB hcap
      k (i + 1) (pos / 2)
    rw [proofGo, if_pos hstop, hlvl, Res.bind_ok]
    by_cases he : pos % 2 = 0
    · have hsib : sibling_index pos = pos + 1 := by simp [sibling_index, he]
      have hspar : (levelAt t i).try_parent_index (sibling_index pos) =
          .ok (pos / 2) := by
        rw [hsib]
        have h2 := @try_parent_index_ok (levelAt t i) (pos + 1) (by omega)
          (by rw [hordi, show (pos + 1) / 2 = pos / 2 by omega]
              exact hparcap)
        rwa [show (pos + 1) / 2 = pos / 2 by omega] at h2
      by_cases hb : sibling_index pos = (levelAt t i).len
      · rw [if_neg (by omega), if_pos hb, if_neg (by rw [hsib]; omega),
          Res.bind_ok, hpar, Res.bind_ok, hspar, Res.bind_ok, if_neg (by omega),
          hrec (acc ++ [MerkleProofHash.new_right nullHash]) (by omega)
            (by omega)]
        rw [canonProof_succ, ← iterUp_succ,
          show proofStepAt (iterUp sha256_pair i ds) pos =
            MerkleProofHash.new_right nullHash by
              rw [proofStepAt,
                if_pos (by rw [← hhash]; simpa using hb)]]
        simp
      · have hblt : sibling_index pos < (levelAt t i).len := by
          rw [hsib] at hb ⊢
          simp only [MerkleTreeLevel.len_eq, hhash] at hb ⊢
          omega
        rw [if_neg (by omega), if_neg hb, if_pos hsib,
          get_hash_at_ok (by simpa using hblt) hmemI,
          Res.bind_ok, Res.bind_ok, hpar, Res.bind_ok, hspar, Res.bind_ok,
          if_neg (by omega),
          hrec (acc ++ [MerkleProofHash.new_right
            ((levelAt t i).hashes.getD (sibling_index pos) [])])
            (by omega) (by omega)]
        rw [canonProof_succ, ← iterUp_succ,
          show proofStepAt (iterUp sha256_pair i ds) pos =
            MerkleProofHash.new_right
              ((iterUp sha256_pair i ds).getD (sibling_index pos) []) by
              rw [proofStepAt,
                if_neg (by rw [← hhash]; simpa using hblt.ne), if_pos hsib]]
        rw [hhash]
        simp
    · have h1 : pos % 2 = 1 := by omega
      have hp1 : 1 ≤ pos := by omega
      have hsib : sibling_index pos = pos - 1 := by simp [sibling_index, he]
      have hspar : (levelAt t i).try_parent_index (sibling_index pos) =
          .ok (pos / 2) := by
        rw [hsib]
        have h2 := @try_parent_index_ok (levelAt t i) (pos - 1) (by omega)
          (by rw [hordi, show (pos - 1) / 2 = pos / 2 by omega]
              exact hparcap)
        rwa [show (pos - 1) / 2 = pos / 2 by omega] at h2
      have hblt : sibling_index pos < (levelAt t i).len := by
        rw [hsib]
        simp only [MerkleTreeLevel.len_eq, hhash]
        omega
      rw [if_neg (by omega), if_neg (by omega), if_neg (by rw [hsib]; omega),
        get_hash_at_ok (by simpa using hblt) hmemI,
        Res.bind_ok, Res.bind_ok, hpar, Res.bind_ok, hspar, Res.bind_ok,
        if_neg (by omega),
        hrec (acc ++ [MerkleProofHash.new_left
          ((levelAt t i).hashes.getD (sibling_index pos) [])])
          (by omega) (by omega)]
      rw [canonProof_succ, ← iterUp_succ,
        show proofStepAt (iterUp sha256_pair i ds) pos =
          MerkleProofHash.new_left
            ((iterUp sha256_pair i ds).getD (sibling_index pos) []) by
            rw [proofStepAt,
              if_neg (by rw [← hhash]; simpa using hblt.ne),
              if_neg (by rw [hsib]; omega)]]
      rw [hhash]
      simp

/-- `proof_at` on a good tree returns the canonical sibling path packaged
with the current root digest. -/
theorem proof_at_of_good (sha256_pair : Bytes → Bytes → Bytes)
    (Hne : ∀ a b, sha256_pair a b ≠ []) {ds : List Bytes} {t : MerkleTree}
    (hg : GoodTree sha256_pair ds t) (hmem : ∀ x ∈ ds, x ≠ [])
    {i : Nat} (hi : i < ds.length) :
    t.proof_at i = .ok
      ⟨(iterUp sha256_pair (t.levels.length - 1) ds).getD 0 [],
        canonProof sha256_pair (t.levels.length - 1) ds i⟩ := by
  have hg' := hg
  obtain ⟨hn, hh2, hh63, hcap, hlow, hB, hord⟩ := hg
  have hds : ds ≠ [] := by
    intro hc
    subst hc
    simp at hn
  have hcap' : ∀ j, j < t.levels.length →
      (iterUp sha256_pair j ds).length ≤ 2 ^ (t.levels.length - 1 - j) := by
    intro j hj
    exact iterUp_length_le sha256_pair hcap j (by omega)
  have hlv0h : (levelAt t 0).hashes = ds := leaves_hashes_of_good hg'
  rw [MerkleTree.proof_at, is_empty_false_of_good hg', Res.bind_ok,
    if_neg (by simp), leaves_ok_of_good hg', Res.bind_ok,
    if_neg (by simp [hlv0h]; omega),
    level_count_ok (by omega) (by unfold MAX_LEVEL_COUNT; omega), Res.bind_ok,
    proofGo_ok sha256_pair Hne hds hmem
      (show t.levels.length < MAX_LEVEL_COUNT by unfold MAX_LEVEL_COUNT; omega)
      rfl hord hB hcap' (t.levels.length - 1) 0 i [] (by omega)
      (by simpa using hi),
    Res.bind_ok, root_hash_of_good sha256_pair Hne hg' hmem, Res.bind_ok]
  rw [MerkleProof.from_raw_parts]
  simp

theorem verifySpec_ne_nil (sha256_pair : Bytes → Bytes → Bytes) (r : Bytes)
    {c : List MerkleProofHash} (hc : c ≠ []) (x : Bytes) :
    verifySpec sha256_pair ⟨r, c⟩ x =
      (c.foldl (foldStep sha256_pair) x == r) := by
  cases c with
  | nil => exact absurd rfl hc
  | cons a l => rfl

theorem canonProof_ne_nil (sha256_pair : Bytes → Bytes → Bytes)
    {k : Nat} (hk : 1 ≤ k) (l : List Bytes) (p : Nat) :
    canonProof sha256_pair k l p ≠ [] := by
  intro hc
  have := canonProof_length sha256_pair k l p
  rw [hc] at this
  simp at this
  omega

/-- Verifying the canonical sibling path of leaf `i` against the canonical
root succeeds. -/
theorem verify_canon (sha256_pair : Bytes → Bytes → Bytes) {ds : List Bytes}
    {k i : Nat} (hk : 1 ≤ k) (hi : i < ds.length)
    (hcap : ds.length ≤ 2 ^ k) :
    MerkleProof.verify sha256_pair
      ⟨(iterUp sha256_pair k ds).getD 0 [], canonProof sha256_pair k ds i⟩
      (ds.getD i []) = true := by
  rw [verify_eq_verifySpec,
    verifySpec_ne_nil sha256_pair _ (canonProof_ne_nil sha256_pair hk ds i) _,
    foldl_canonProof sha256_pair k ds i hi,
    Nat.div_eq_of_lt (by omega : i < 2 ^ k)]
  exact beq_self_eq_true _

/-- A guarded read whose specific entry is nonempty succeeds even when
other entries of the level are empty. -/
theorem get_hash_at_one {lvl : MerkleTreeLevel} {i : Nat}
    (hi : i < lvl.hashes.length) (hne : lvl.hashes.getD i [] ≠ []) :
    lvl.get_hash_at i = .ok (lvl.hashes.getD i []) := by
  rw [MerkleTreeLevel.get_hash_at, if_neg (by simp; omega), if_neg hne]

/-- Hashing the child window around the final position panics when the
final stored digest is empty: this is the `assert` inside `get_hash_at`. -/
theorem hash_left_right_at_nil_tail (sha256_pair : Bytes → Bytes → Bytes)
    {l : List Bytes} (hmem : ∀ x ∈ l, x ≠ []) (lv : Nat) :
    MerkleTreeLevel.hash_left_right_at sha256_pair ⟨lv, l ++ [[]]⟩ l.length =
      .panicked := by
  have hget : (⟨lv, l ++ [[]]⟩ : MerkleTreeLevel).get_hash_at l.length =
      .panicked := by
    rw [MerkleTreeLevel.get_hash_at, if_neg (by simp),
      if_pos (by rw [List.getD_append_right _ _ _ _ le_rfl]; simp)]
  rw [MerkleTreeLevel.hash_left_right_at]
  by_cases he : l.length % 2 = 0
  · have hlr : left_right_at l.length = (l.length, l.length + 1) := by
      simp [left_right_at, he]
    rw [hlr]
    simp only []
    rw [if_neg (by omega), if_neg (by simp), hget, Res.bind_panicked]
  · have hp1 : 1 ≤ l.length := by omega
    have hlr : left_right_at l.length = (l.length - 1, l.length) := by
      simp [left_right_at, he]
    rw [hlr]
    simp only []
    have hgl : (⟨lv, l ++ [[]]⟩ : MerkleTreeLevel).get_hash_at (l.length - 1) =
        .ok ((l ++ [[]]).getD (l.length - 1) []) := by
      refine get_hash_at_one (by simp; omega) ?_
      rw [List.getD_append _ _ _ _ (by omega)]
      have hm : l.getD (l.length - 1) [] ∈ l := by
        rw [List.getD_eq_getElem _ _ (by omega)]
        exact List.getElem_mem (by omega)
      exact hmem _ hm
    rw [if_neg (by omega), if_neg (by simp; omega), hgl, Res.bind_ok,
      if_neg (by simp), hget, Res.bind_panicked]

/-- The update pass panics immediately when the just-appended final leaf
digest is empty. -/
theorem update_at_nil_tail (sha256_pair : Bytes → Bytes → Bytes)
    {tt : MerkleTree} {lvnum : Nat} {ds : List Bytes}
    (hmem : ∀ x ∈ ds, x ≠ [])
    (hlen0 : 0 < tt.levels.length) (hlen64 : tt.levels.length < 64)
    (hstop : 0 < tt.levels.length - 1)
    (hlv : levelAt tt 0 = ⟨lvnum, ds ++ [[]]⟩) :
    MerkleTree.update_at sha256_pair tt ds.length = .panicked := by
  obtain ⟨f, hf⟩ : ∃ f, tt.levels.length - 1 = f + 1 :=
    ⟨tt.levels.length - 2, by omega⟩
  rw [MerkleTree.update_at,
    level_count_ok hlen0 (by unfold MAX_LEVEL_COUNT; omega), Res.bind_ok,
    hf, updateGo, if_pos (by omega : 0 < f + 1),
    level_ok_of_lt (by omega) (by unfold MAX_LEVEL_COUNT; omega), Res.bind_ok,
    hlv, hash_left_right_at_nil_tail sha256_pair hmem lvnum,
    Res.bind_panicked]

/-- Adding an empty digest to a good tree always panics (inside the update
pass, or already while growing a 63-level tree); it never returns an
`InvalidHash` error. -/
theorem add_leaf_nil_of_good (sha256_pair : Bytes → Bytes → Bytes)
    {ds : List Bytes} {t : MerkleTree} (hg : GoodTree sha256_pair ds t)
    (hmem : ∀ x ∈ ds, x ≠ []) :
    t.add_leaf sha256_pair [] = .panicked := by
  have hg' := hg
  obtain ⟨hn, hh2, hh63, hcap, hlow, hB, hord⟩ := hg
  have hlv0h : (levelAt t 0).hashes = ds := leaves_hashes_of_good hg'
  have hlv0l : (levelAt t 0).level = t.levels.length - 1 :=
    leaves_level_of_good hg'
  have hl0 : levelAt t 0 = ⟨t.levels.length - 1, ds⟩ := by
    rcases hlv : levelAt t 0 with ⟨a, b⟩
    rw [hlv] at hlv0h hlv0l
    simp only [] at hlv0h hlv0l
    rw [hlv0h, hlv0l]
  have hpow : 2 ^ t.levels.length = 2 * 2 ^ (t.levels.length - 1) := by
    conv_lhs => rw [show t.levels.length = (t.levels.length - 1) + 1 by omega]
    rw [pow_succ']
  rw [MerkleTree.add_leaf, leaves_ok_of_good hg', Res.bind_ok]
  by_cases hfull : 2 ^ (t.levels.length - 1) ≤ ds.length
  · have hfullb : (levelAt t 0).is_full = true := by
      rw [MerkleTreeLevel.is_full, MerkleTreeLevel.max_len_eq, hlv0l,
        MerkleTreeLevel.len_eq, hlv0h]
      exact decide_eq_true hfull
    rw [hfullb, if_pos rfl]
    rcases inc_leaves_level_of_good hg' with ⟨h63, hpan⟩ | ⟨hle, hok⟩
    · rw [hpan, Res.bind_panicked]
    · rw [hok, Res.bind_ok]
      have hmaplen : (t.levels.map fun l =>
          (⟨l.level + 1, l.hashes⟩ : MerkleTreeLevel)).length =
            t.levels.length := by simp
      have hlvg : levelAt ⟨(t.levels.map fun l => ⟨l.level + 1, l.hashes⟩) ++
          [MerkleTreeLevel.new]⟩ 0 = ⟨t.levels.length, ds⟩ := by
        rw [levelAt_append_sing _ _ (by rw [hmaplen]; omega),
          if_neg (by rw [hmaplen]; omega), levelAt_map _ (by omega), hl0]
        simp only []
        rw [show t.levels.length - 1 + 1 = t.levels.length by omega]
      rw [MerkleTree.leaves,
        level_ok_of_lt (by simp) (by simp; unfold MAX_LEVEL_COUNT; omega),
        Res.bind_ok, hlvg,
        add_hash_ok [] (by show ds.length < 2 ^ t.levels.length; omega) hmem,
        Res.bind_ok,
        show (⟨t.levels.length, ds ++ [[]]⟩ : MerkleTreeLevel).len - 1 =
          ds.length by simp,
        update_at_nil_tail sha256_pair hmem (by simp) (by simp; omega)
          (by simp; omega)
          (by rw [levelAt_set_same _ (by simp)]),
        Res.bind_panicked]
  · have hfullb : (levelAt t 0).is_full = false := by
      rw [MerkleTreeLevel.is_full, MerkleTreeLevel.max_len_eq, hlv0l,
        MerkleTreeLevel.len_eq, hlv0h]
      exact decide_eq_false hfull
    rw [hfullb, if_neg (by simp), is_empty_false_of_good hg', Res.bind_ok,
      if_neg (by simp), Res.bind_ok, leaves_ok_of_good hg', Res.bind_ok, hl0,
      add_hash_ok [] (by simp only []; omega) hmem, Res.bind_ok,
      show (⟨t.levels.length - 1, ds ++ [[]]⟩ : MerkleTreeLevel).len - 1 =
        ds.length by simp,
      update_at_nil_tail sha256_pair hmem (by simp; omega)
        (by simp; omega) (by simp; omega)
        (by rw [levelAt_set_same _ (by omega)]),
      Res.bind_panicked]

/-- Adding an empty digest to the fresh empty tree panics. -/
theorem add_leaf_nil_new (sha256_pair : Bytes → Bytes → Bytes) :
    MerkleTree.new.add_leaf sha256_pair [] = .panicked := rfl

/-- Adding an empty digest to any reachable tree panics: the failure is an
assertion (a crash), not a returned error. -/
theorem add_leaf_nil_reachable (sha256_pair : Bytes → Bytes → Bytes)
    (Hne : ∀ a b, sha256_pair a b ≠ []) {ds : List Bytes} {t : MerkleTree}
    (hr : ReachableTree sha256_pair ds t) (hmem : ∀ x ∈ ds, x ≠ []) :
    t.add_leaf sha256_pair [] = .panicked := by
  rcases good_of_reachable sha256_pair Hne hr hmem with ⟨_, rfl⟩ | hgood
  · exact add_leaf_nil_new sha256_pair
  · exact add_leaf_nil_of_good sha256_pair hgood hmem

/-! ## The archive (`mem_db.rs`) and the server error enum (`error.rs`) -/

/-- The server error enum (`ServerError` in `mrklar/src/error.rs`),
restricted to the variants the embedded logic can produce; transport-only
variants are omitted, and an RPC `Status` is modelled by its message. -/
inductive ServerError where
  | Status (message : String)
  | Unexpected (message : String)
  | UndefinedMessageType
  | UnknownMessageType
  | EmptyMessage
  | UploadInvalidHash
  | UploadInvalidFilename
  | FileIndexDoesNotExist (index : Nat)
  | MerkleTree (e : MerkleTreeError)
  | DbSave
  | DbLoad
deriving DecidableEq, Repr

/-- A file metadata record (`MemDbEntry`). -/
structure MemDbEntry where
  filename : String
deriving DecidableEq, Repr, Inhabited

/-- The archive (`MemDbInner`): the entry vector and the Merkle tree. -/
structure MemDbInner where
  entries : List MemDbEntry
  tree : MerkleTree
deriving DecidableEq

/-- `MemDbInner::default`: no entries, fresh tree. -/
def MemDbInner.new : MemDbInner := ⟨[], MerkleTree.new⟩

/-- `MemDbInner::num_entries`. -/
def MemDbInner.num_entries (s : MemDbInner) : Nat := s.entries.length

/-- `MemDbInner::merkle_root`. -/
def MemDbInner.merkle_root (s : MemDbInner) : MTRes Bytes :=
  match s.tree.root_hash with
  | .ok r => .ok r
  | .err e => .err e
  | .panicked => .panicked

/-- `MemDbInner::compute_proof`. -/
def MemDbInner.compute_proof (s : MemDbInner) (file_index : Nat) :
    MTRes MerkleProof :=
  s.tree.proof_at file_index

/-- `MemDbInner::compute_proof_and_entry`: bound check against the entry
vector, clone the entry, compute the proof. -/
def MemDbInner.compute_proof_and_entry (s : MemDbInner) (file_index : Nat) :
    Res ServerError (MemDbEntry × MerkleProof) :=
  if s.num_entries ≤ file_index then .err (.FileIndexDoesNotExist file_index)
  else
    match s.compute_proof file_index with
    | .ok proof => .ok (s.entries.getD file_index ⟨""⟩, proof)
    | .err e => .err (.MerkleTree e)
    | .panicked => .panicked

/-- `MemDbInner::add_file`: add the leaf, push the entry, assert the index
lines up, read the new root (an `unwrap`), move the staged file into the
archive and persist. The two file-system effects (rename and save) are
outside the state model and are modelled as succeeding; the temp-file
cleanup on the error path is likewise a file-system effect. -/
def MemDbInner.add_file (sha256_pair : Bytes → Bytes → Bytes)
    (s : MemDbInner) (filename : String) (hash : Bytes) :
    Res ServerError (Nat × Bytes × MemDbInner) :=
  match s.tree.add_leaf sha256_pair hash with
  | .err e => .err (.MerkleTree e)
  | .panicked => .panicked
  | .ok (file_index, tree') =>
    if file_index ≠ (s.entries ++ [(⟨filename⟩ : MemDbEntry)]).length - 1 then
      .panicked
    else
      match tree'.root_hash with
      | .ok root_hash =>
        .ok (file_index, root_hash,
          ⟨s.entries ++ [(⟨filename⟩ : MemDbEntry)], tree'⟩)
      | _ => .panicked

/-- Archives produced by a sequence of successful `add_file` commits from
the empty archive; `ds` records the committed leaf digests. -/
inductive ReachableArch (sha256_pair : Bytes → Bytes → Bytes) :
    List Bytes → MemDbInner → Prop where
  | base : ReachableArch sha256_pair [] MemDbInner.new
  | step {ds : List Bytes} {s : MemDbInner} {filename : String} {hash : Bytes}
      {i : Nat} {r : Bytes} {s' : MemDbInner} :
      ReachableArch sha256_pair ds s →
      s.add_file sha256_pair filename hash = .ok (i, r, s') →
      ReachableArch sha256_pair (ds ++ [hash]) s'

/-- The facts carried by every reachable archive: the committed digests
are nonempty, the tree is a reachable tree over them, and the entry vector
is in lock-step with them. -/
theorem reachable_arch_facts (sha256_pair : Bytes → Bytes → Bytes)
    (Hne : ∀ a b, sha256_pair a b ≠ []) {ds : List Bytes} {s : MemDbInner}
    (hr : ReachableArch sha256_pair ds s) :
    (∀ x ∈ ds, x ≠ []) ∧ ReachableTree sha256_pair ds s.tree ∧
      s.entries.length = ds.length := by
  induction hr with
  | base => exact ⟨by simp, ReachableTree.base, rfl⟩
  | @step ds s filename hash i r s' hprev hadd ih =>
    obtain ⟨hmem, hrt, hlen⟩ := ih
    rw [MemDbInner.add_file] at hadd
    cases hleaf : s.tree.add_leaf sha256_pair hash with
    | ok p =>
      obtain ⟨fi, tree'⟩ := p
      rw [hleaf] at hadd
      simp only [] at hadd
      by_cases hidx : fi ≠ (s.entries ++ [(⟨filename⟩ : MemDbEntry)]).length - 1
      · rw [if_pos hidx] at hadd
        cases hadd
      · rw [if_neg hidx] at hadd
        cases hroot : tree'.root_hash with
        | ok rr =>
          rw [hroot] at hadd
          simp only [Res.ok.injEq, Prod.mk.injEq] at hadd
          obtain ⟨_, _, hs'⟩ := hadd
          have hhne : hash ≠ [] := by
            intro hc
            subst hc
            rw [add_leaf_nil_reachable sha256_pair Hne hrt hmem] at hleaf
            cases hleaf
          refine ⟨?_, ?_, ?_⟩
          · intro x hx
            rcases List.mem_append.mp hx with h | h
            · exact hmem x h
            · rw [List.mem_singleton.mp h]
              exact hhne
          · rw [← hs']
            exact ReachableTree.step hrt hleaf
          · rw [← hs']
            simp
            omega
        | err e =>
          rw [hroot] at hadd
          cases hadd
        | panicked =>
          rw [hroot] at hadd
          cases hadd
    | err e =>
      rw [hleaf] at hadd
      cases hadd
    | panicked =>
      rw [hleaf] at hadd
      cases hadd

/-! ## The upload stream handler (`file_service.rs`) -/

/-- `FileMetadata` from the wire protocol. -/
structure FileMetadata where
  filename : String
deriving DecidableEq, Repr

/-- The tagged union `upload_request::Type`. -/
inductive UploadRequestType where
  | Metadata (fmd : FileMetadata)
  | Sha256 (bytes : Bytes)
  | Chunk (bytes : Bytes)
deriving DecidableEq, Repr

/-- `UploadRequest`: the discriminant is optional on the wire. -/
structure UploadRequest where
  rtype : Option UploadRequestType
deriving DecidableEq, Repr

/-- An inbound stream item: a message or a transport status error; the
stream itself is the list of items, `next()` reading the head. -/
abbrev UploadStream := List (Except String UploadRequest)

/-- `get_upload_request_type`. -/
def get_upload_request_type (o : Option (Except String UploadRequest)) :
    Res ServerError UploadRequestType :=
  match o with
  | none => .err .EmptyMessage
  | some (.error e) => .err (.Status e)
  | some (.ok ur) =>
    match ur.rtype with
    | none => .err .UndefinedMessageType
    | some t => .ok t

/-- `upload_request_file_metadata`. -/
def upload_request_file_metadata (o : Option (Except String UploadRequest)) :
    Res ServerError FileMetadata :=
  Res.bind (get_upload_request_type o) fun t =>
    match t with
    | .Metadata fmd => .ok fmd
    | _ => .err .UnknownMessageType

/-- `upload_request_file_sha256`: note that any byte length is accepted. -/
def upload_request_file_sha256 (o : Option (Except String UploadRequest)) :
    Res ServerError Bytes :=
  Res.bind (get_upload_request_type o) fun t =>
    match t with
    | .Sha256 h => .ok h
    | _ => .err .UnknownMessageType

/-- `upload_request_chunk`. -/
def upload_request_chunk (o : Option (Except String UploadRequest)) :
    Res ServerError Bytes :=
  Res.bind (get_upload_request_type o) fun t =>
    match t with
    | .Chunk chunk => .ok chunk
    | _ => .err .UnknownMessageType

/-- The staging file as seen by the upload task: whether the temp file
currently exists, its current contents, and the total bytes ever written
to it (the last field records how much of the chunk stream was consumed
and survives removal of the file). -/
structure UploadFs where
  tmpExists : Bool
  tmpContent : List Nat
  written : List Nat
deriving DecidableEq, Repr

/-- The chunk-reading loop of `upload` (step 4): each message must be a
`Chunk`; its bytes feed the running hash and are written to the temp
file. Returns the bytes fed to the hash. -/
def upload_chunk_loop : UploadStream → UploadFs → List Nat →
    Res ServerError (List Nat) × UploadFs
  | [], fs, hacc => (.ok hacc, fs)
  | m :: rest, fs, hacc =>
    match upload_request_chunk (some m) with
    | .ok chunk =>
      upload_chunk_loop rest ⟨fs.tmpExists, fs.tmpContent ++ chunk,
        fs.written ++ chunk⟩ (hacc ++ chunk)
    | .err e => (.err e, fs)
    | .panicked => (.panicked, fs)

/-- The upload task of `FileService::upload`, over the abstract stream:
read the metadata message (nonempty filename), read the declared digest
message (any byte length), create the temp file, consume the chunk
stream, fsync, compare the running hash with the declared digest
(removing the temp file and failing with `UploadInvalidHash` on mismatch),
and finally commit through `add_file` (whose errors the handler maps to
`Unexpected`). `sha256_bytes` abstracts SHA-256 of a byte sequence; the
incremental hasher updates amount to hashing the concatenated chunks.
Returns the RPC result together with the archive and staging-file state. -/
def upload (sha256_pair : Bytes → Bytes → Bytes)
    (sha256_bytes : List Nat → Bytes) (db : MemDbInner)
    (stream : UploadStream) :
    Res ServerError (Nat × Bytes) × MemDbInner × UploadFs :=
  match upload_request_file_metadata stream.head? with
  | .err e => (.err e, db, ⟨false, [], []⟩)
  | .panicked => (.panicked, db, ⟨false, [], []⟩)
  | .ok file_metadata =>
    if file_metadata.filename = "" then
      (.err .UploadInvalidFilename, db, ⟨false, [], []⟩)
    else
      match upload_request_file_sha256 stream.tail.head? with
      | .err e => (.err e, db, ⟨false, [], []⟩)
      | .panicked => (.panicked, db, ⟨false, [], []⟩)
      | .ok file_sha256 =>
        match upload_chunk_loop stream.tail.tail ⟨true, [], []⟩ [] with
        | (.err e, fs) => (.err e, db, ⟨false, [], fs.written⟩)
        | (.panicked, fs) => (.panicked, db, fs)
        | (.ok content, fs) =>
          if sha256_bytes content ≠ file_sha256 then
            (.err .UploadInvalidHash, db, ⟨false, [], fs.written⟩)
          else
            match db.add_file sha256_pair file_metadata.filename file_sha256 with
            | .err _ => (.err (.Unexpected "Unable to add file to merkle tree"),
                db, ⟨false, [], fs.written⟩)
            | .panicked => (.panicked, db, fs)
            | .ok (file_index, merkle_root, db') =>
              (.ok (file_index, merkle_root), db', ⟨false, [], fs.written⟩)

/-- A well-formed upload stream: one metadata message, one declared-digest
message, then chunk messages to the end of the stream. -/
def chunkStream (chunks : List (List Nat)) : UploadStream :=
  chunks.map fun c => .ok ⟨some (.Chunk c)⟩

/-- The chunk loop consumes a pure chunk stream completely, hashing and
writing the concatenation. -/
theorem upload_chunk_loop_chunks : ∀ (chunks : List (List Nat))
    (fs : UploadFs) (hacc : List Nat),
    upload_chunk_loop (chunkStream chunks) fs hacc =
      (.ok (hacc ++ chunks.flatten),
        ⟨fs.tmpExists, fs.tmpContent ++ chunks.flatten,
          fs.written ++ chunks.flatten⟩)
  | [], fs, hacc => by simp [chunkStream, upload_chunk_loop]
  | c :: cs, fs, hacc => by
    rw [chunkStream, List.map_cons]
    rw [upload_chunk_loop]
    show upload_chunk_loop (chunkStream cs) _ _ = _
    rw [upload_chunk_loop_chunks cs]
    simp

/-! ## Height arithmetic and the spec-side proof description -/

/-- The two power-of-two bounds of the invariant pin the height to
`⌈log2 (max m 2)⌉ + 1`. -/
theorem height_eq_clog {a m : Nat} (ha : 2 ≤ a) (h1 : m ≤ 2 ^ (a - 1))
    (h2 : 2 ^ (a - 2) < max m 2) : a = Nat.clog 2 (max m 2) + 1 := by
  have hub : max m 2 ≤ 2 ^ (a - 1) := by
    have h2a : 2 ≤ 2 ^ (a - 1) := by
      calc 2 = 2 ^ 1 := rfl
      _ ≤ 2 ^ (a - 1) := Nat.pow_le_pow_right (by omega) (by omega)
    omega
  have hle : Nat.clog 2 (max m 2) ≤ a - 1 :=
    (Nat.le_pow_iff_clog_le (by omega)).mp hub
  have hgt : a - 2 < Nat.clog 2 (max m 2) :=
    (Nat.pow_lt_iff_lt_clog (by omega)).mp h2
  omega

/-- The sibling path exactly as the specification words it, read off the
stored levels of the tree: at each level `k` from the leaves up, emit a
right-tagged null digest when the sibling position equals the level
length, otherwise the stored sibling digest tagged right when the sibling
is `p + 1` and left when it is `p - 1`; then advance `p ← p / 2`. The
first argument is the number of levels below the root. -/
def proof_hashes_spec (t : MerkleTree) : Nat → Nat → Nat → List MerkleProofHash
  | 0, _, _ => []
  | fuel + 1, k, p =>
    proofStepAt (levelAt t k).hashes p ::
      proof_hashes_spec t fuel (k + 1) (p / 2)

theorem proof_hashes_spec_eq_canon (sha256_pair : Bytes → Bytes → Bytes)
    {ds : List Bytes} {t : MerkleTree}
    (hB : ∀ j, j < t.levels.length →
      (levelAt t j).hashes = iterUp sha256_pair j ds) :
    ∀ (fuel k p : Nat), k + fuel ≤ t.levels.length →
      proof_hashes_spec t fuel k p =
        canonProof sha256_pair fuel (iterUp sha256_pair k ds) p
  | 0, _, _, _ => rfl
  | fuel + 1, k, p, hk => by
    rw [proof_hashes_spec, canonProof_succ, ← iterUp_succ,
      hB k (by omega),
      proof_hashes_spec_eq_canon sha256_pair hB fuel (k + 1) (p / 2)
        (by omega)]

/-! ## Claim theorems -/

/-- C1: for every tree built by `n` successful `add_leaf` calls on 32-byte
digests and every index `i < n`, `proof_at i` succeeds, the proof's
embedded root is the tree's current root, and verifying the proof on leaf
`i`'s digest returns true. (The root embedding of the returned proof is
modelled from the spec, `MerkleProof::with_hashes` being absent from the
sources.) -/
theorem claim_C1 (sha256_pair : Bytes → Bytes → Bytes)
    (hlen32 : ∀ a b, (sha256_pair a b).length = 32)
    {ds : List Bytes} {t : MerkleTree}
    (hr : ReachableTree sha256_pair ds t)
    (hds32 : ∀ d ∈ ds, d.length = 32)
    {i : Nat} (hi : i < ds.length) :
    ∃ p r, t.proof_at i = .ok p ∧ t.root_hash = .ok r ∧ p.root = r ∧
      p.verify sha256_pair (ds.getD i []) = true := by
  have Hne : ∀ a b, sha256_pair a b ≠ [] := by
    intro a b h
    have := hlen32 a b
    rw [h] at this
    simp at this
  have hmem : ∀ x ∈ ds, x ≠ [] := by
    intro x hx h
    have := hds32 x hx
    rw [h] at this
    simp at this
  rcases good_of_reachable sha256_pair Hne hr hmem with ⟨rfl, _⟩ | hgood
  · simp at hi
  · obtain ⟨hn, hh2, hh63, hcap, hlow, hB, hord⟩ := hgood
    have hgood' : GoodTree sha256_pair ds t :=
      ⟨hn, hh2, hh63, hcap, hlow, hB, hord⟩
    refine ⟨_, _, proof_at_of_good sha256_pair Hne hgood' hmem hi,
      root_hash_of_good sha256_pair Hne hgood' hmem, rfl, ?_⟩
    exact verify_canon sha256_pair (by omega) hi hcap

/-- C3: `verify` rejects an empty sibling sequence and otherwise equals
the specification's fold, seeding the running digest from the input and
the first entry and folding the remaining entries with the side-tagged
pair hash, accepting exactly when the result equals the proof's root. -/
theorem claim_C3 (sha256_pair : Bytes → Bytes → Bytes) (p : MerkleProof)
    (x : Bytes) :
    p.verify sha256_pair x = verifySpec sha256_pair p x :=
  verify_eq_verifySpec sha256_pair p x

/-- C6 counterexample: on the empty archive `root_hash` fails with
`NodeDoesNotExist 0 0`, not with `TreeEmpty` as the claim states. -/
theorem counter_C6 :
    MerkleTree.new.root_hash = .err (.NodeDoesNotExist 0 0) ∧
    MerkleTree.new.root_hash ≠ .err .TreeEmpty := by
  constructor
  · decide
  · decide

/-- C6 (amended): on an empty archive (one level, no leaves), every
`proof_at` fails with `TreeEmpty`, while `root_hash` fails with
`NodeDoesNotExist` at the leaves ordinal and index 0 (not `TreeEmpty`). -/
theorem claim_C6 {t : MerkleTree} (h1 : t.levels.length = 1)
    (h2 : (levelAt t 0).hashes = []) :
    (∀ i, t.proof_at i = .err .TreeEmpty) ∧
    t.root_hash = .err (.NodeDoesNotExist (levelAt t 0).level 0) := by
  have hcount : t.level_count = .ok 1 := by
    rw [MerkleTree.level_count, if_neg (by omega),
      if_neg (by unfold MAX_LEVEL_COUNT; omega), h1]
  have hlv : t.level 0 = .ok (levelAt t 0) :=
    level_ok_of_lt (by omega) (by unfold MAX_LEVEL_COUNT; omega)
  have hempty : t.is_empty = .ok true := by
    rw [MerkleTree.is_empty, hcount, Res.bind_ok, if_pos rfl,
      MerkleTree.leaves, hlv, Res.bind_ok, MerkleTreeLevel.is_empty,
      MerkleTreeLevel.len_eq, h2]
    rfl
  constructor
  · intro i
    rw [MerkleTree.proof_at, hempty, Res.bind_ok, if_pos rfl]
  · rw [MerkleTree.root_hash, MerkleTree.root, hcount, Res.bind_ok, hlv,
      Res.bind_ok, MerkleTreeLevel.get_hash_at,
      if_pos (by rw [MerkleTreeLevel.len_eq, h2]; simp)]

/-- C6 witness: the freshly constructed tree instantiates the amended
claim at index 0. -/
theorem claim_C6_witness :
    MerkleTree.new.proof_at 0 = .err .TreeEmpty ∧
    MerkleTree.new.root_hash = .err (.NodeDoesNotExist 0 0) :=
  ⟨(@claim_C6 MerkleTree.new rfl rfl).1 0, (@claim_C6 MerkleTree.new rfl rfl).2⟩

/-! ## Concrete instances for the witnesses -/

/-- A concrete 32-byte pair hash standing in for SHA-256 in the witnesses. -/
def hashW : Bytes → Bytes → Bytes :=
  fun a b => List.replicate 32 (a.sum + b.sum + 1)

/-- A concrete 32-byte stream hash standing in for SHA-256 in the upload
witnesses. -/
def sha256W : List Nat → Bytes := fun bs => List.replicate 32 (bs.sum + 1)

def leafW0 : Bytes := List.replicate 32 1

def leafW1 : Bytes := List.replicate 32 2

/-- The tree after inserting `leafW0` into the fresh tree. -/
def treeW1 : MerkleTree :=
  match MerkleTree.new.add_leaf hashW leafW0 with
  | .ok (_, t) => t
  | _ => MerkleTree.new

/-- The tree after additionally inserting `leafW1`. -/
def treeW2 : MerkleTree :=
  match treeW1.add_leaf hashW leafW1 with
  | .ok (_, t) => t
  | _ => MerkleTree.new

theorem treeW1_step : MerkleTree.new.add_leaf hashW leafW0 = .ok (0, treeW1) := by
  decide

theorem treeW2_step : treeW1.add_leaf hashW leafW1 = .ok (1, treeW2) := by
  decide

theorem treeW2_reach : ReachableTree hashW [leafW0, leafW1] treeW2 :=
  ReachableTree.step (ReachableTree.step ReachableTree.base treeW1_step)
    treeW2_step

theorem hashW_len : ∀ a b, (hashW a b).length = 32 := by
  intro a b
  simp [hashW]

/-- C1 witness: the two-leaf tree built from `leafW0, leafW1` satisfies the
claim at index 1. -/
theorem claim_C1_witness :
    (∀ d ∈ [leafW0, leafW1], d.length = 32) ∧ 1 < ([leafW0, leafW1]).length ∧
    ∃ p r, treeW2.proof_at 1 = .ok p ∧ treeW2.root_hash = .ok r ∧
      p.root = r ∧ p.verify hashW (([leafW0, leafW1]).getD 1 []) = true :=
  ⟨by decide, by decide,
    claim_C1 hashW hashW_len treeW2_reach (by decide) (by decide)⟩

/-- C2: on every reachable nonempty tree and index below the leaf count,
`proof_at` returns exactly the specification's level-by-level sibling
description read off the stored levels, with the current root digest
embedded in the returned proof (the embedding step is modelled from the
spec, `MerkleProof::with_hashes` being absent from the sources). -/
theorem claim_C2 (sha256_pair : Bytes → Bytes → Bytes)
    (hlen32 : ∀ a b, (sha256_pair a b).length = 32)
    {ds : List Bytes} {t : MerkleTree}
    (hr : ReachableTree sha256_pair ds t)
    (hds32 : ∀ d ∈ ds, d.length = 32)
    {i : Nat} (hi : i < ds.length) :
    ∃ r, t.root_hash = .ok r ∧
      t.proof_at i = .ok (MerkleProof.from_raw_parts r
        (proof_hashes_spec t (t.levels.length - 1) 0 i)) := by
  have Hne : ∀ a b, sha256_pair a b ≠ [] := by
    intro a b h
    have := hlen32 a b
    rw [h] at this
    simp at this
  have hmem : ∀ x ∈ ds, x ≠ [] := by
    intro x hx h
    have := hds32 x hx
    rw [h] at this
    simp at this
  rcases good_of_reachable sha256_pair Hne hr hmem with ⟨rfl, _⟩ | hgood
  · simp at hi
  · obtain ⟨hn, hh2, hh63, hcap, hlow, hB, hord⟩ := hgood
    have hgood' : GoodTree sha256_pair ds t :=
      ⟨hn, hh2, hh63, hcap, hlow, hB, hord⟩
    refine ⟨_, root_hash_of_good sha256_pair Hne hgood' hmem, ?_⟩
    rw [proof_at_of_good sha256_pair Hne hgood' hmem hi,
      proof_hashes_spec_eq_canon sha256_pair hB (t.levels.length - 1) 0 i
        (by omega)]
    rfl

/-- C2 witness: the two-leaf tree instantiates the claim at index 0. -/
theorem claim_C2_witness :
    (∀ d ∈ [leafW0, leafW1], d.length = 32) ∧
    ∃ r, treeW2.root_hash = .ok r ∧
      treeW2.proof_at 0 = .ok (MerkleProof.from_raw_parts r
        (proof_hashes_spec treeW2 (treeW2.levels.length - 1) 0 0)) :=
  ⟨by decide, claim_C2 hashW hashW_len treeW2_reach (by decide) (by decide)⟩

theorem hashW_ne : ∀ a b, hashW a b ≠ [] := by
  intro a b h
  have := hashW_len a b
  rw [h] at this
  simp at this

/-- C9 counterexample: adding an empty digest to the fresh tree panics
inside an assertion; it does not return the `InvalidHash` error the claim
states. -/
theorem counter_C9 :
    MerkleTree.new.add_leaf hashW [] = .panicked ∧
    (Res.panicked : MTRes (Nat × MerkleTree)) ≠
      .err (.InvalidHash 1 0) := by
  constructor
  · decide
  · decide

/-- C9 (amended): on every reachable tree, attempting to add an empty
digest fails with an assertion panic (never the `InvalidHash` error), and
the internal assertions otherwise hold on reachable states: proof
generation succeeds at every valid index. -/
theorem claim_C9 (sha256_pair : Bytes → Bytes → Bytes)
    (Hne : ∀ a b, sha256_pair a b ≠ []) {ds : List Bytes} {t : MerkleTree}
    (hr : ReachableTree sha256_pair ds t) (hmem : ∀ x ∈ ds, x ≠ []) :
    t.add_leaf sha256_pair [] = .panicked ∧
    (∀ i, i < ds.length → ∃ p, t.proof_at i = .ok p) := by
  refine ⟨add_leaf_nil_reachable sha256_pair Hne hr hmem, ?_⟩
  intro i hi
  rcases good_of_reachable sha256_pair Hne hr hmem with ⟨rfl, _⟩ | hgood
  · simp at hi
  · exact ⟨_, proof_at_of_good sha256_pair Hne hgood hmem hi⟩

/-- C9 witness: the two-leaf tree instantiates the amended claim. -/
theorem claim_C9_witness :
    treeW2.add_leaf hashW [] = .panicked ∧
    ∃ p, treeW2.proof_at 0 = .ok p :=
  ⟨(claim_C9 hashW hashW_ne treeW2_reach (by decide)).1,
    (claim_C9 hashW hashW_ne treeW2_reach (by decide)).2 0 (by decide)⟩

/-- C7 counterexample: one successful `add_leaf` produces a tree with two
levels, while the claim's formula `⌈log2 (max 1 1)⌉ + 1` gives one. -/
theorem counter_C7 :
    MerkleTree.new.add_leaf hashW leafW0 = .ok (0, treeW1) ∧
    treeW1.levels.length = 2 ∧ Nat.clog 2 (max 1 1) + 1 = 1 ∧
    (2 : Nat) ≠ 1 := by
  refine ⟨treeW1_step, by decide, ?_, by decide⟩
  simp

/-- C7 (amended): after `n ≥ 1` successful `add_leaf` calls the level
count is `⌈log2 (max n 2)⌉ + 1` (the claim's `max n 1` fails at `n = 1`),
and a further successful insertion grows the height exactly when the
leaves level is full, i.e. exactly when `n` has reached the power-of-two
capacity `2 ^ (height - 1)`. -/
theorem claim_C7 (sha256_pair : Bytes → Bytes → Bytes)
    (Hne : ∀ a b, sha256_pair a b ≠ []) {ds : List Bytes} {t : MerkleTree}
    (hr : ReachableTree sha256_pair ds t) (hmem : ∀ x ∈ ds, x ≠ [])
    (hn : 1 ≤ ds.length) :
    t.levels.length = Nat.clog 2 (max ds.length 2) + 1 ∧
    (∀ d i t', d ≠ [] → t.add_leaf sha256_pair d = .ok (i, t') →
      (t'.levels.length = t.levels.length + 1 ↔
        ds.length = 2 ^ (t.levels.length - 1))) := by
  rcases good_of_reachable sha256_pair Hne hr hmem with ⟨rfl, _⟩ | hgood
  · simp at hn
  · obtain ⟨hn', hh2, hh63, hcap, hlow, hB, hord⟩ := hgood
    have hgood' : GoodTree sha256_pair ds t :=
      ⟨hn', hh2, hh63, hcap, hlow, hB, hord⟩
    refine ⟨height_eq_clog hh2 hcap hlow, ?_⟩
    intro d i t' hd hadd
    have hpow1 : 2 ^ (t.levels.length - 1) = 2 * 2 ^ (t.levels.length - 2) := by
      rw [← pow_succ']
      congr 1
      omega
    rcases add_leaf_good sha256_pair Hne hgood' hmem hd with
      ⟨_, _, hpan⟩ | ⟨t'', hok, hgood''⟩
    · rw [hpan] at hadd
      cases hadd
    · rw [hok] at hadd
      have ht : t'' = t' := by
        cases hadd
        rfl
      subst ht
      obtain ⟨hn2, hh2', hh63', hcap', hlow', _, _⟩ := hgood''
      have hlen' : (ds ++ [d]).length = ds.length + 1 := by simp
      rw [hlen'] at hcap' hlow'
      have hup := height_eq_clog hh2' hcap' hlow'
      constructor
      · intro hgrow
        by_contra hne2
        have hlt : ds.length < 2 ^ (t.levels.length - 1) := by omega
        have halt := height_eq_clog hh2 (show ds.length + 1 ≤
          2 ^ (t.levels.length - 1) by omega) (by omega)
        omega
      · intro hfull
        have hpow2 : 2 ^ t.levels.length = 2 * 2 ^ (t.levels.length - 1) := by
          rw [← pow_succ']
          congr 1
          omega
        have halt := height_eq_clog (show 2 ≤ t.levels.length + 1 by omega)
          (show ds.length + 1 ≤ 2 ^ (t.levels.length + 1 - 1) by
            rw [show t.levels.length + 1 - 1 = t.levels.length by omega]
            omega)
          (by rw [show t.levels.length + 1 - 2 = t.levels.length - 1 by omega]
              omega)
        omega

/-- C7 witness: the one-leaf tree has the amended height, and inserting a
second leaf does not grow it (the leaves level holds one of two slots). -/
theorem claim_C7_witness :
    treeW1.levels.length = Nat.clog 2 (max ([leafW0]).length 2) + 1 ∧
    (treeW2.levels.length = treeW1.levels.length + 1 ↔
      ([leafW0]).length = 2 ^ (treeW1.levels.length - 1)) := by
  obtain ⟨h1, h2⟩ := claim_C7 hashW hashW_ne
    (ReachableTree.step ReachableTree.base treeW1_step) (by decide) (by decide)
  exact ⟨h1, h2 leafW1 1 treeW2 (by decide) treeW2_step⟩

/-- C4: an upload stream whose declared digest differs from the SHA-256 of
the concatenated chunk bytes fails with `UploadInvalidHash`, leaves the
archive (and hence `count`) unchanged, and removes the staging file. -/
theorem claim_C4 (sha256_pair : Bytes → Bytes → Bytes)
    (sha256_bytes : List Nat → Bytes) (db : MemDbInner) (f : String)
    (hf : ¬ f = "") (d : Bytes) (chunks : List (List Nat))
    (hmismatch : sha256_bytes chunks.flatten ≠ d) :
    upload sha256_pair sha256_bytes db
      (.ok ⟨some (.Metadata ⟨f⟩)⟩ :: .ok ⟨some (.Sha256 d)⟩ ::
        chunkStream chunks) =
      (.err .UploadInvalidHash, db, ⟨false, [], chunks.flatten⟩) := by
  simp only [upload, List.head?_cons, List.tail_cons,
    upload_request_file_metadata, upload_request_file_sha256,
    get_upload_request_type, Res.bind_ok]
  rw [if_neg hf, upload_chunk_loop_chunks chunks ⟨true, [], []⟩ []]
  simp only [List.nil_append]
  rw [if_pos hmismatch]

theorem claim_C4_witness :
    ¬ "a" = "" ∧ sha256W (List.flatten [[1]]) ≠ ([] : Bytes) ∧
    upload hashW sha256W MemDbInner.new
      (.ok ⟨some (.Metadata ⟨"a"⟩)⟩ :: .ok ⟨some (.Sha256 [])⟩ ::
        chunkStream [[1]]) =
      (.err .UploadInvalidHash, MemDbInner.new,
        ⟨false, [], List.flatten [[1]]⟩) :=
  ⟨by decide, by decide,
    claim_C4 hashW sha256W MemDbInner.new "a" (by decide) [] [[1]] (by decide)⟩

/-- C10: the declared-digest message is accepted whatever its byte length
(`upload_request_file_sha256` performs no length check), and whenever the
declared digest does not have the 32-byte length every SHA-256 output has,
the upload necessarily fails with `UploadInvalidHash` — but only after the
whole chunk stream has been consumed and written to the staging file (the
`written` component of the file-system trace holds all the chunk bytes). -/
theorem claim_C10 (sha256_pair : Bytes → Bytes → Bytes)
    (sha256_bytes : List Nat → Bytes)
    (hsha : ∀ bs, (sha256_bytes bs).length = 32)
    (db : MemDbInner) (f : String) (hf : ¬ f = "")
    (d : Bytes) (hd : d.length ≠ 32) (chunks : List (List Nat)) :
    upload_request_file_sha256 (some (.ok ⟨some (.Sha256 d)⟩)) = .ok d ∧
    upload sha256_pair sha256_bytes db
      (.ok ⟨some (.Metadata ⟨f⟩)⟩ :: .ok ⟨some (.Sha256 d)⟩ ::
        chunkStream chunks) =
      (.err .UploadInvalidHash, db, ⟨false, [], chunks.flatten⟩) := by
  have hmismatch : sha256_bytes chunks.flatten ≠ d := by
    intro h
    apply hd
    rw [← h]
    exact hsha chunks.flatten
  refine ⟨rfl, ?_⟩
  simp only [upload, List.head?_cons, List.tail_cons,
    upload_request_file_metadata, upload_request_file_sha256,
    get_upload_request_type, Res.bind_ok]
  rw [if_neg hf, upload_chunk_loop_chunks chunks ⟨true, [], []⟩ []]
  simp only [List.nil_append]
  rw [if_pos hmismatch]

theorem claim_C10_witness :
    (∀ bs, (sha256W bs).length = 32) ∧ ¬ "a" = "" ∧
    ([1, 2, 3] : Bytes).length ≠ 32 ∧
    (upload_request_file_sha256 (some (.ok ⟨some (.Sha256 [1, 2, 3])⟩)) =
        .ok [1, 2, 3] ∧
      upload hashW sha256W MemDbInner.new
        (.ok ⟨some (.Metadata ⟨"a"⟩)⟩ :: .ok ⟨some (.Sha256 [1, 2, 3])⟩ ::
          chunkStream [[5], [6]]) =
        (.err .UploadInvalidHash, MemDbInner.new,
          ⟨false, [], List.flatten [[5], [6]]⟩)) :=
  ⟨fun bs => by simp [sha256W], by decide, by decide,
    claim_C10 hashW sha256W (fun bs => by simp [sha256W]) MemDbInner.new "a"
      (by decide) [1, 2, 3] (by decide) [[5], [6]]⟩

/-- On every reachable tree the leaves level is readable and holds exactly
the committed digests. -/
theorem leaves_of_reachable (sha256_pair : Bytes → Bytes → Bytes)
    (Hne : ∀ a b, sha256_pair a b ≠ []) {ds : List Bytes} {t : MerkleTree}
    (hr : ReachableTree sha256_pair ds t) (hmem : ∀ x ∈ ds, x ≠ []) :
    ∃ lvl, t.leaves = .ok lvl ∧ lvl.hashes = ds := by
  rcases good_of_reachable sha256_pair Hne hr hmem with ⟨rfl, rfl⟩ | hgood
  · exact ⟨MerkleTreeLevel.new, rfl, rfl⟩
  · exact ⟨levelAt t 0, leaves_ok_of_good hgood, leaves_hashes_of_good hgood⟩

/-- C5: on every reachable archive the entry vector and the leaves level
have equal length, and every successful `add_file` appends exactly one
entry and one leaf, returns the index `new length - 1`, and returns the
new root. -/
theorem claim_C5 (sha256_pair : Bytes → Bytes → Bytes)
    (Hne : ∀ a b, sha256_pair a b ≠ []) {ds : List Bytes} {s : MemDbInner}
    (hr : ReachableArch sha256_pair ds s) :
    (∃ lvl, s.tree.leaves = .ok lvl ∧
      s.entries.length = lvl.hashes.length) ∧
    (∀ filename hash i r s',
      s.add_file sha256_pair filename hash = .ok (i, r, s') →
      s'.entries = s.entries ++ [⟨filename⟩] ∧
      (∃ lvl lvl', s.tree.leaves = .ok lvl ∧ s'.tree.leaves = .ok lvl' ∧
        lvl'.hashes = lvl.hashes ++ [hash]) ∧
      i = s'.entries.length - 1 ∧ s'.merkle_root = .ok r) := by
  obtain ⟨hmem, hrt, hlen⟩ := reachable_arch_facts sha256_pair Hne hr
  obtain ⟨lvl, hlv, hhs⟩ := leaves_of_reachable sha256_pair Hne hrt hmem
  refine ⟨⟨lvl, hlv, by rw [hhs]; exact hlen⟩, ?_⟩
  intro filename hash i r s' hadd
  rw [MemDbInner.add_file] at hadd
  cases hleaf : s.tree.add_leaf sha256_pair hash with
  | err e => rw [hleaf] at hadd; cases hadd
  | panicked => rw [hleaf] at hadd; cases hadd
  | ok p =>
    obtain ⟨fi, tree'⟩ := p
    rw [hleaf] at hadd
    simp only [] at hadd
    by_cases hidx : fi ≠ (s.entries ++ [(⟨filename⟩ : MemDbEntry)]).length - 1
    · rw [if_pos hidx] at hadd
      cases hadd
    · rw [if_neg hidx] at hadd
      cases hroot : tree'.root_hash with
      | err e => rw [hroot] at hadd; cases hadd
      | panicked => rw [hroot] at hadd; cases hadd
      | ok rr =>
        rw [hroot] at hadd
        simp only [Res.ok.injEq, Prod.mk.injEq] at hadd
        obtain ⟨rfl, rfl, rfl⟩ := hadd
        have hhne : hash ≠ [] := by
          intro hc
          subst hc
          rw [add_leaf_nil_reachable sha256_pair Hne hrt hmem] at hleaf
          cases hleaf
        have hrt' : ReachableTree sha256_pair (ds ++ [hash]) tree' :=
          ReachableTree.step hrt hleaf
        have hmem' : ∀ x ∈ ds ++ [hash], x ≠ [] := by
          intro x hx
          rcases List.mem_append.mp hx with h | h
          · exact hmem x h
          · simp at h
            subst h
            exact hhne
        obtain ⟨lvl', hlv', hhs'⟩ :=
          leaves_of_reachable sha256_pair Hne hrt' hmem'
        refine ⟨rfl, ⟨lvl, lvl', hlv, hlv', by rw [hhs, hhs']⟩, ?_, ?_⟩
        · exact not_not.mp hidx
        · simp only [MemDbInner.merkle_root]
          rw [hroot]

def rootW1 : Bytes := List.replicate 32 33

def rootW2 : Bytes := List.replicate 32 97

/-- The archive after committing `leafW0` under filename `a`. -/
def archW1 : MemDbInner :=
  match MemDbInner.new.add_file hashW "a" leafW0 with
  | .ok (_, _, s) => s
  | _ => MemDbInner.new

theorem archW1_step :
    MemDbInner.new.add_file hashW "a" leafW0 = .ok (0, rootW1, archW1) := by
  decide

/-- The archive after additionally committing `leafW1` under filename `b`. -/
def archW2 : MemDbInner :=
  match archW1.add_file hashW "b" leafW1 with
  | .ok (_, _, s) => s
  | _ => MemDbInner.new

theorem archW2_step :
    archW1.add_file hashW "b" leafW1 = .ok (1, rootW2, archW2) := by
  decide

theorem claim_C5_witness :
    (∀ a b, hashW a b ≠ []) ∧
    (∃ lvl, archW1.tree.leaves = .ok lvl ∧
      archW1.entries.length = lvl.hashes.length) ∧
    (archW2.entries = archW1.entries ++ [⟨"b"⟩] ∧
      (∃ lvl lvl', archW1.tree.leaves = .ok lvl ∧
        archW2.tree.leaves = .ok lvl' ∧
        lvl'.hashes = lvl.hashes ++ [leafW1]) ∧
      (1 : Nat) = archW2.entries.length - 1 ∧
      archW2.merkle_root = .ok rootW2) :=
  ⟨hashW_ne,
    (claim_C5 hashW hashW_ne
      (ReachableArch.step ReachableArch.base archW1_step)).1,
    (claim_C5 hashW hashW_ne
      (ReachableArch.step ReachableArch.base archW1_step)).2
      "b" leafW1 1 rootW2 archW2 archW2_step⟩

/-- C8: on every reachable archive, a proof/download lookup at an index at
or past the number of committed entries fails with
`FileIndexDoesNotExist i`, and at every index below it succeeds, returning
the stored entry record together with the computed proof. -/
theorem claim_C8 (sha256_pair : Bytes → Bytes → Bytes)
    (Hne : ∀ a b, sha256_pair a b ≠ []) {ds : List Bytes} {s : MemDbInner}
    (hr : ReachableArch sha256_pair ds s) :
    (∀ i, s.num_entries ≤ i →
      s.compute_proof_and_entry i = .err (.FileIndexDoesNotExist i)) ∧
    (∀ i, i < s.num_entries → ∃ p,
      s.compute_proof i = .ok p ∧
      s.compute_proof_and_entry i = .ok (s.entries.getD i ⟨""⟩, p)) := by
  obtain ⟨hmem, hrt, hlen⟩ := reachable_arch_facts sha256_pair Hne hr
  constructor
  · intro i hi
    rw [MemDbInner.compute_proof_and_entry, if_pos hi]
  · intro i hi
    have hi' : i < ds.length := by
      rw [MemDbInner.num_entries] at hi
      omega
    rcases good_of_reachable sha256_pair Hne hrt hmem with ⟨hds, _⟩ | hgood
    · subst hds
      simp at hi'
    · have hpf := proof_at_of_good sha256_pair Hne hgood hmem hi'
      refine ⟨_, hpf, ?_⟩
      rw [MemDbInner.compute_proof_and_entry, if_neg (Nat.not_le.mpr hi)]
      rw [MemDbInner.compute_proof]
      rw [hpf]

theorem claim_C8_witness :
    (∀ a b, hashW a b ≠ []) ∧
    archW1.compute_proof_and_entry 1 = .err (.FileIndexDoesNotExist 1) ∧
    ∃ p, archW1.compute_proof 0 = .ok p ∧
      archW1.compute_proof_and_entry 0 =
        .ok (archW1.entries.getD 0 ⟨""⟩, p) :=
  ⟨hashW_ne,
    (claim_C8 hashW hashW_ne
      (ReachableArch.step ReachableArch.base archW1_step)).1 1 (by decide),
    (claim_C8 hashW hashW_ne
      (ReachableArch.step ReachableArch.base archW1_step)).2 0 (by decide)⟩
